import Mathlib

set_option maxHeartbeats 1000000

/-
Verification of the clustering pipeline in scripts/merge-graph.mjs (the
merge/re-cluster script) and the relevance filter it shares with
scripts/ingest-papers.mjs.

Numeric code is modelled over ℚ wherever the source uses only field
arithmetic and comparisons (so every such definition is executable), and
over ℝ where the source calls transcendental functions (Math.cos, Math.sin,
Math.log).  JavaScript arrays become lists, mutable index updates become
List.set, and the merge while-loop becomes a fuel-indexed recursion (the
fuel provided is proved sufficient below).
-/

/-- Viewport rectangle record mirroring the viewBox constant (line 23). -/
structure ViewBox where
  xMin : ℚ
  yMin : ℚ
  xMax : ℚ
  yMax : ℚ

/-- viewBox constant: x in [80, 920], y in [60, 640]. -/
def viewBox : ViewBox := { xMin := 80, yMin := 60, xMax := 920, yMax := 640 }

/-- Math.min over a spread nonempty array of rationals. -/
def jsMin : List ℚ → ℚ
  | [] => 0
  | x :: xs => xs.foldl min x

/-- Math.max over a spread nonempty array of rationals. -/
def jsMax : List ℚ → ℚ
  | [] => 0
  | x :: xs => xs.foldl max x

/-- scaleToViewBox (lines 256-269): linearly map the bounding box of the
point set onto the viewport; a zero range on an axis is replaced by 1. -/
def scaleToViewBox (points : List (ℚ × ℚ)) : List (ℚ × ℚ) :=
  let xs := points.map Prod.fst
  let ys := points.map Prod.snd
  let minX := jsMin xs
  let maxX := jsMax xs
  let minY := jsMin ys
  let maxY := jsMax ys
  let rangeX := if maxX - minX = 0 then 1 else maxX - minX
  let rangeY := if maxY - minY = 0 then 1 else maxY - minY
  points.map fun p =>
    (viewBox.xMin + (p.1 - minX) / rangeX * (viewBox.xMax - viewBox.xMin),
     viewBox.yMin + (p.2 - minY) / rangeY * (viewBox.yMax - viewBox.yMin))

/-- MIN_CLUSTER_SIZE constant (line 200). -/
def MIN_CLUSTER_SIZE : ℕ := 3

/-- k = Math.max(...clusterAssignments) + 1 (line 204). -/
def kOf (asg : List ℕ) : ℕ := asg.foldl max 0 + 1

/-- The counts[clusterAssignments[i]]++ accumulation loop (lines 206-214). -/
def bumpCounts (cs : List ℕ) (asg : List ℕ) : List ℕ :=
  asg.foldl (fun cs a => cs.set a (cs.getD a 0 + 1)) cs

/-- Per-cluster member counts, starting from an all-zero array of length k. -/
def initCounts (k : ℕ) (asg : List ℕ) : List ℕ :=
  bumpCounts (List.replicate k 0) asg

/-- The centroid coordinate-sum accumulation loop (lines 207-214),
polymorphic so that it serves both the ℚ-valued merge step and the ℝ-valued
neat-composition step. -/
def accumSums {α : Type} [Zero α] [Add α] (k : ℕ) (pts : List (α × α)) (asg : List ℕ) :
    List (α × α) :=
  (pts.zip asg).foldl
    (fun cs pa =>
      cs.set pa.2 ((cs.getD pa.2 (0, 0)).1 + pa.1.1, (cs.getD pa.2 (0, 0)).2 + pa.1.2))
    (List.replicate k ((0 : α), (0 : α)))

/-- Cluster centroids as computed once before the merge loop (lines 206-220):
coordinate sums divided by the member count for non-empty clusters. -/
def centroidsOf (k : ℕ) (pts : List (ℚ × ℚ)) (asg : List ℕ) : List (ℚ × ℚ) :=
  let counts := initCounts k asg
  let sums := accumSums k pts asg
  (List.range k).map fun c =>
    if 0 < counts.getD c 0 then
      ((sums.getD c (0, 0)).1 / (counts.getD c 0 : ℚ),
       (sums.getD c (0, 0)).2 / (counts.getD c 0 : ℚ))
    else sums.getD c (0, 0)

/-- counts.findIndex((cnt, c) => cnt > 0 && cnt < minSize) (line 224). -/
def findSmallAux : List ℕ → ℕ → Option ℕ
  | [], _ => none
  | cnt :: rest, i =>
    if 0 < cnt ∧ cnt < MIN_CLUSTER_SIZE then some i else findSmallAux rest (i + 1)

/-- Index of the first non-empty undersized cluster, if any. -/
def findSmall (counts : List ℕ) : Option ℕ := findSmallAux counts 0

/-- Squared euclidean distance dx*dx + dy*dy (lines 230-232). -/
def dist2 (p q : ℚ × ℚ) : ℚ :=
  (p.1 - q.1) * (p.1 - q.1) + (p.2 - q.2) * (p.2 - q.2)

/-- The body of the strict minimum update d < minDist (lines 233-236): a
fresh candidate replaces the best one seen so far only when strictly
closer; none plays the role of nearest = -1 / minDist = Infinity. -/
def betterOf (c2 : ℕ) (d : ℚ) : Option (ℕ × ℚ) → Option (ℕ × ℚ)
  | none => some (c2, d)
  | some nd => if d < nd.2 then some (c2, d) else some nd

/-- The nearest-cluster scan (lines 226-237); skipped indices are the small
cluster itself and empty clusters, and the comparison is strict, so the
earliest index wins ties. -/
def scanNearest (cents : List (ℚ × ℚ)) (counts : List ℕ) (small : ℕ) :
    List ℕ → Option (ℕ × ℚ) → Option (ℕ × ℚ)
  | [], best => best
  | c2 :: rest, best =>
    scanNearest cents counts small rest
      (if c2 = small ∨ counts.getD c2 0 = 0 then best
       else betterOf c2 (dist2 (cents.getD c2 (0, 0)) (cents.getD small (0, 0))) best)

/-- The index of the nearest other non-empty cluster, scanning c2 = 0..k-1. -/
def findNearest (cents : List (ℚ × ℚ)) (counts : List ℕ) (small : ℕ) : Option ℕ :=
  (scanNearest cents counts small (List.range counts.length) none).map Prod.fst

/-- One iteration of the merge while-loop (lines 223-244) on the state
(counts, assignments); none signals that the loop breaks, either because no
non-empty cluster is undersized or because no merge target exists. -/
def mergeStep (cents : List (ℚ × ℚ)) (st : List ℕ × List ℕ) : Option (List ℕ × List ℕ) :=
  (findSmall st.1).bind fun small =>
    (findNearest cents st.1 small).map fun nearest =>
      ((st.1.set nearest (st.1.getD nearest 0 + st.1.getD small 0)).set small 0,
       st.2.map fun a => if a = small then nearest else a)

/-- The merge while-loop, driven by fuel; the fuel passed below is proved
sufficient to reach the loop's exit condition. -/
def mergeGo (cents : List (ℚ × ℚ)) : ℕ → List ℕ × List ℕ → List ℕ × List ℕ
  | 0, st => st
  | fuel + 1, st =>
    match mergeStep cents st with
    | none => st
    | some st2 => mergeGo cents fuel st2

/-- Dense renumbering map oldToNew (lines 246-250): a surviving id c is sent
to the number of surviving ids below c. -/
def oldToNew (counts : List ℕ) (c : ℕ) : ℕ :=
  ((List.range c).filter fun j => decide (0 < counts.getD j 0)).length

/-- Number of non-empty clusters recorded in a counts array. -/
def countPos (counts : List ℕ) : ℕ := counts.countP fun c => decide (0 < c)

/-- State of (counts, assignments) when the merge while-loop exits. -/
def mergedState (points : List (ℚ × ℚ)) (asg : List ℕ) : List ℕ × List ℕ :=
  let k := kOf asg
  mergeGo (centroidsOf k points asg) (k + 1) (initCounts k asg, asg)

/-- mergeSmallClusters (lines 203-253): run the merge loop, then renumber the
surviving cluster ids densely; returns the remapped assignments and newK. -/
def mergeSmallClusters (points : List (ℚ × ℚ)) (asg : List ℕ) : List ℕ × ℕ :=
  let st := mergedState points asg
  (st.2.map fun c => oldToNew st.1 c, countPos st.1)

/-- Mean of a cluster's current members' positions.  This follows the spec's
wording for the small-cluster merger ("compute that cluster's centroid (mean
of its members' positions)") and is used both to state what the initial
centroids are and to build the spec-worded variant of the merger. -/
def meanOf (pts : List (ℚ × ℚ)) (asg : List ℕ) (c : ℕ) : ℚ × ℚ :=
  let members := ((pts.zip asg).filter fun pa => decide (pa.2 = c)).map Prod.fst
  ((members.map Prod.fst).sum / (members.length : ℚ),
   (members.map Prod.snd).sum / (members.length : ℚ))

/-- Centroids of every cluster recomputed from the current assignments, as
the spec's wording of the merge loop requires. -/
def specCentroids (k : ℕ) (pts : List (ℚ × ℚ)) (asg : List ℕ) : List (ℚ × ℚ) :=
  (List.range k).map (meanOf pts asg)

/-- One iteration of the spec-worded merge loop: identical to mergeStep
except that the centroids are recomputed from the current members. -/
def specStep (k : ℕ) (pts : List (ℚ × ℚ)) (st : List ℕ × List ℕ) :
    Option (List ℕ × List ℕ) :=
  mergeStep (specCentroids k pts st.2) st

/-- The spec-worded merge loop. -/
def specGo (k : ℕ) (pts : List (ℚ × ℚ)) : ℕ → List ℕ × List ℕ → List ℕ × List ℕ
  | 0, st => st
  | fuel + 1, st =>
    match specStep k pts st with
    | none => st
    | some st2 => specGo k pts fuel st2

/-- Variant of mergeSmallClusters that follows the spec's words (cluster
centroids are the means of the cluster's current members at every
iteration), used to compare the code against the spec sentence of C3. -/
def mergeSmallClustersSpec (points : List (ℚ × ℚ)) (asg : List ℕ) : List ℕ × ℕ :=
  let k := kOf asg
  let st := specGo k points (k + 1) (initCounts k asg, asg)
  (st.2.map fun c => oldToNew st.1 c, countPos st.1)

/-- applyNeatComposition (lines 272-335): place the k cluster centroids on an
inner/outer ring around the viewport center and translate every point with
its cluster, shrinking offsets from the cluster centroid by spreadScale. -/
noncomputable def applyNeatComposition (points : List (ℝ × ℝ)) (asg : List ℕ) (k : ℕ) :
    List (ℝ × ℝ) :=
  let sums := accumSums k points asg
  let counts := initCounts k asg
  let centerX : ℝ := ((viewBox.xMin + viewBox.xMax : ℚ) : ℝ) / 2
  let centerY : ℝ := ((viewBox.yMin + viewBox.yMax : ℚ) : ℝ) / 2
  let centroids := (List.range k).map fun c =>
    if 0 < counts.getD c 0 then
      ((sums.getD c (0, 0)).1 / (counts.getD c 0 : ℝ),
       (sums.getD c (0, 0)).2 / (counts.getD c 0 : ℝ))
    else (centerX, centerY)
  let spanX : ℝ := ((viewBox.xMax - viewBox.xMin : ℚ) : ℝ)
  let spanY : ℝ := ((viewBox.yMax - viewBox.yMin : ℚ) : ℝ)
  let innerCount : ℕ := max 1 (Nat.floor ((k : ℚ) * (35 / 100)))
  let outerCount : ℕ := k - innerCount
  let innerRadiusX := spanX * (22 / 100)
  let innerRadiusY := spanY * (22 / 100)
  let outerRadiusX := spanX * (45 / 100)
  let outerRadiusY := spanY * (45 / 100)
  let targetPositions := (List.range k).map fun i =>
    let onInner := i < innerCount
    let ringN : ℕ := if onInner then innerCount else outerCount
    let ringStart : ℕ := if onInner then 0 else innerCount
    let ringIndex : ℕ := i - ringStart
    let angle : ℝ := 2 * Real.pi * (ringIndex : ℝ) / (ringN : ℝ) - Real.pi / 2
    let rx := if onInner then innerRadiusX else outerRadiusX
    let ry := if onInner then innerRadiusY else outerRadiusY
    (centerX + rx * Real.cos angle, centerY + ry * Real.sin angle)
  let spreadScale : ℝ := 48 / 100
  (points.zip asg).map fun pc =>
    let cen := centroids.getD pc.2 (0, 0)
    let t := targetPositions.getD pc.2 (0, 0)
    (t.1 + spreadScale * (pc.1.1 - cen.1), t.2 + spreadScale * (pc.1.2 - cen.2))

/-- The layout portion of main (lines 498-521): viewport scaling, small
cluster merging, then neat composition; the result is the per-document
embedding written to the persisted output. -/
noncomputable def pipelineEmbeddings (raw2d : List (ℚ × ℚ)) (asg : List ℕ) : List (ℝ × ℝ) :=
  let pts := scaleToViewBox raw2d
  let m := mergeSmallClusters pts asg
  applyNeatComposition (pts.map fun p => ((p.1 : ℝ), (p.2 : ℝ))) m.1 m.2

/-- Number of documents containing a term at least once (line 100). -/
def docFreq (docs : List (List String)) (term : String) : ℕ :=
  (docs.filter fun tokens => decide (term ∈ tokens)).length

/-- IDF with the smoothing used on line 101: ln((N+1)/(docFreq+1)) + 1. -/
noncomputable def idf (docs : List (List String)) (term : String) : ℝ :=
  Real.log (((docs.length : ℝ) + 1) / ((docFreq docs term : ℝ) + 1)) + 1

/-- Term frequency (line 107): raw count over token-sequence length, with the
denominator replaced by 1 for an empty token sequence. -/
def tfVal (tokens : List String) (term : String) : ℚ :=
  (tokens.count term : ℚ) / (if tokens.length = 0 then 1 else (tokens.length : ℚ))

/-- One TF-IDF matrix entry (line 108). -/
noncomputable def tfIdfEntry (docs : List (List String)) (tokens : List String)
    (term : String) : ℝ :=
  ((tfVal tokens term : ℚ) : ℝ) * idf docs term

/-- tfIdfMatrix (lines 97-111). -/
noncomputable def tfIdfMatrix (docs : List (List String)) (vocab : List String) :
    List (List ℝ) :=
  docs.map fun tokens => vocab.map fun term => tfIdfEntry docs tokens term

/-- Lowercasing of a character list (String.prototype.toLowerCase on the
ASCII texts involved). -/
def lowerChars (l : List Char) : List Char := l.map Char.toLower

/-- Character-list test that the first list starts with the second. -/
def startsWithL : List Char → List Char → Bool
  | _, [] => true
  | [], _ :: _ => false
  | c :: cs, d :: ds => c == d && startsWithL cs ds

/-- Character-list substring test, mirroring String.prototype.includes. -/
def containsL : List Char → List Char → Bool
  | [], needle => needle.isEmpty
  | c :: rest, needle => startsWithL (c :: rest) needle || containsL rest needle

/-- The fixed topic-phrase list HUMAN_AI_PHRASES (lines 338-369), identical
in merge-graph.mjs and ingest-papers.mjs. -/
def HUMAN_AI_PHRASES : List String :=
  ["human-ai",
   "human ai",
   "human–ai",
   "human-machine",
   "human machine",
   "human-agent",
   "human agent",
   "human in the loop",
   "human-in-the-loop",
   "human-AI collaboration",
   "human AI collaboration",
   "human-AI team",
   "human AI team",
   "human-AI teaming",
   "human AI teaming",
   "AI collaboration",
   "AI-assisted",
   "AI assisted",
   "human-AI interaction",
   "human AI interaction",
   "human-centered AI",
   "human centred AI",
   "collaborative AI",
   "teaming",
   "human computer",
   "HCI",
   "assistive AI",
   "cooperative AI",
   "mixed-initiative",
   "mixed initiative"]

/-- isHumanAICollabRelevant (lines 371-374): true when any phrase of the
fixed list occurs as a case-insensitive literal substring of
title + " " + summary. -/
def isHumanAICollabRelevant (title summary : String) : Bool :=
  let text := lowerChars (title ++ " " ++ summary).data
  HUMAN_AI_PHRASES.any fun phrase => containsL text (lowerChars phrase.data)

/-- Strip one trailing letter s, mirroring replace(/s$/, "") (line 179). -/
def stripS (l : List Char) : List Char :=
  if l.getLast? = some 's' then l.dropLast else l

/-- isStemDuplicate (lines 175-180): a term is a duplicate of an
already-selected term when one is a prefix of the other or the two agree
after stripping a trailing s. -/
def isStemDuplicate (term : String) (selected : List String) : Bool :=
  selected.any fun s =>
    startsWithL term.data s.data || startsWithL s.data term.data ||
      stripS term.data == stripS s.data

/-- The dedup loop with break (lines 181-185): stop as soon as three terms
survive, and skip stem-duplicates of the already-selected terms. -/
def dedupTop : List String → List String → List String
  | [], acc => acc
  | t :: rest, acc =>
    if 3 ≤ acc.length then acc
    else if isStemDuplicate t acc then dedupTop rest acc
    else dedupTop rest (acc ++ [t])

/-- Comparator underlying termScores.sort((a, b) => b[1] - a[1]) (line 169):
the pair a may stay in front of b iff b's score is not larger. -/
def scoreGe (a b : ℕ × ℚ) : Prop := b.2 ≤ a.2

instance : DecidableRel scoreGe := fun a b => inferInstanceAs (Decidable (b.2 ≤ a.2))

instance : IsTotal (ℕ × ℚ) scoreGe := ⟨fun a b => le_total b.2 a.2⟩

instance : IsTrans (ℕ × ℚ) scoreGe := ⟨fun _ _ _ h1 h2 => le_trans h2 h1⟩

/-- Stable descending sort of (termIdx, score) pairs, mirroring
termScores.sort((a, b) => b[1] - a[1]) (line 169); a stable insertion sort
computes the same list as JavaScript's stable Array.prototype.sort under
this comparator. -/
def sortedScores (ts : List (ℕ × ℚ)) : List (ℕ × ℚ) :=
  List.insertionSort scoreGe ts

/-- Empty string literal (used as an out-of-range array read default). -/
def emptyStr : String := ""

/-- top (lines 170-173): sort descending, slice to 10, keep positive scores,
map term indices back to vocabulary terms. -/
def topOf (ts : List (ℕ × ℚ)) (vocab : List String) : List String :=
  (((sortedScores ts).take 10).filter fun p => decide (0 < p.2)).map
    fun p => vocab.getD p.1 emptyStr

/-- t.charAt(0).toUpperCase() + t.slice(1) (line 190). -/
def capitalize (s : String) : String :=
  match s.data with
  | [] => emptyStr
  | c :: rest => String.mk (c.toUpper :: rest)

/-- Separator and fallback-label strings used on lines 191 and 194. -/
def ampSep : String := " & "

/-- Fallback label stem of `Cluster <n>` (line 194). -/
def clusterFallback : String := "Cluster "

/-- Label construction (lines 187-194): join the capitalized surviving terms
with " & " when at least two survive, use the single capitalized term when
one survives, else fall back to Cluster <c+1>. -/
def mkLabel (sel : List String) (c : ℕ) : String :=
  if 2 ≤ sel.length then String.intercalate ampSep (sel.map capitalize)
  else
    match sel with
    | t :: _ => capitalize t
    | [] => clusterFallback ++ toString (c + 1)

/-- The label computed for one cluster from its adjusted term scores
(lines 169-194). -/
def labelForCluster (ts : List (ℕ × ℚ)) (vocab : List String) (c : ℕ) : String :=
  mkLabel (dedupTop (topOf ts vocab) []) c

/-- A persisted output record reduced to the fields the dedup step reads: the
identifier, and an opaque payload standing for every other field. -/
structure DocNode where
  id : String
  payload : String
deriving DecidableEq

/-- The dedup filter with its mutable seen-set (lines 537-542): keep a node
iff its id has not been seen before. -/
def dedupById (seen : List String) : List DocNode → List DocNode
  | [] => []
  | n :: rest =>
    if n.id ∈ seen then dedupById seen rest
    else n :: dedupById (n.id :: seen) rest

/-- The cluster count handed to k-means (line 484): Math.min(K, allDocs.length, 20). -/
def kForRun (K : ℕ) (docCount : ℕ) : ℕ := min (min K docCount) 20

/-- Cluster ids of an assignment list in order of first appearance; used to
state what it would mean for the renumbering to preserve first-appearance
order. -/
def firstOccs (l : List ℕ) : List ℕ :=
  l.foldl (fun acc a => if a ∈ acc then acc else acc ++ [a]) []

/-- Loop invariant of the merge while-loop: the counts array has length k,
every assignment is a valid cluster id, and the counts array agrees with the
member counts of the assignment list. -/
def MergeInv (k : ℕ) (st : List ℕ × List ℕ) : Prop :=
  st.1.length = k ∧ (∀ a ∈ st.2, a < k) ∧ ∀ c, st.1.getD c 0 = st.2.count c

/-- Sample title used by the spec's relevance-filter test (should match). -/
def sampleTitleTeaming : String := "Building Trust in Human-AI Teaming"

/-- Sample title used by the spec's relevance-filter test (should not match). -/
def sampleTitleEarnings : String := "Quarterly Earnings Report"

/-- A two-document corpus in which the term below occurs in every document. -/
def docsUbiq : List (List String) := [["x"], ["x"]]

/-- The term occurring in every document of docsUbiq. -/
def termX : String := "x"

/-- Concrete raw 2D input for the viewport-containment counterexample: the
bounding box of these points is exactly the viewport, so viewport scaling is
the identity on them. -/
def c1RawPoints : List (ℚ × ℚ) :=
  [(80, 60), (500, 60), (920, 60), (80, 640), (920, 640), (500, 60)]

/-- Cluster assignments for the viewport-containment counterexample: two
clusters of three documents each, so the small-cluster merge is a no-op. -/
def c1Assign : List ℕ := [0, 0, 0, 1, 1, 1]

/-- Concrete scaled 2D positions for the centroid-recomputation
counterexample (collinear points, written with integer coordinates). -/
def c3Points : List (ℚ × ℚ) :=
  [(-20, 0), (0, 0), (24, 0), (24, 0), (24, 0), (-41, 0), (-41, 0), (-41, 0)]

/-- Cluster assignments for the centroid-recomputation counterexample: two
singleton clusters 0 and 1 and two full clusters 2 and 3. -/
def c3Assign : List ℕ := [0, 1, 2, 2, 2, 3, 3, 3]

/-- Six coincident points (positions are irrelevant to the renumbering
counterexample, where no merge happens). -/
def c5Points : List (ℚ × ℚ) := List.replicate 6 (0, 0)

/-- Assignments whose surviving ids 3 and 1 first appear in that order. -/
def c5Assign : List ℕ := [3, 3, 3, 1, 1, 1]

/-- Three coincident points used to instantiate theorems with hypotheses. -/
def w3Points : List (ℚ × ℚ) := List.replicate 3 (0, 0)

/-- A single-cluster assignment of three documents. -/
def w3Assign : List ℕ := [0, 0, 0]

/-
Generic list lemmas used throughout the development.
-/

/-- Reading an updated position of a list returns the written value. -/
theorem getD_set_eq {α : Type} (d x : α) :
    ∀ (l : List α) (i : ℕ), i < l.length → (l.set i x).getD i d = x := by
  intro l
  induction l with
  | nil => intro i h; simp at h
  | cons a t ih =>
    intro i h
    cases i with
    | zero => simp [List.set]
    | succ j =>
      simp only [List.set, List.getD_cons_succ]
      exact ih j (by simpa using h)

/-- Reading any other position of an updated list is unchanged. -/
theorem getD_set_ne {α : Type} (d x : α) :
    ∀ (l : List α) (i j : ℕ), i ≠ j → (l.set i x).getD j d = l.getD j d := by
  intro l
  induction l with
  | nil => intro i j _; simp [List.set]
  | cons a t ih =>
    intro i j hij
    cases i with
    | zero =>
      cases j with
      | zero => exact absurd rfl hij
      | succ j2 => simp [List.set]
    | succ i2 =>
      cases j with
      | zero => simp [List.set]
      | succ j2 =>
        simp only [List.set, List.getD_cons_succ]
        exact ih i2 j2 (by omega)

/-- Every position of a replicated list reads the default/repeated value. -/
theorem getD_replicate_self {α : Type} (d : α) (k c : ℕ) :
    (List.replicate k d).getD c d = d := by
  induction k generalizing c with
  | zero => simp
  | succ n ih =>
    cases c with
    | zero => simp [List.replicate]
    | succ c2 => simp [List.replicate, ih c2]

/-- Reading through a map at a valid index applies the function. -/
theorem getD_map {α β : Type} (f : α → β) (d : α) :
    ∀ (l : List α) (i : ℕ), i < l.length → (l.map f).getD i (f d) = f (l.getD i d) := by
  intro l
  induction l with
  | nil => intro i h; simp at h
  | cons a t ih =>
    intro i h
    cases i with
    | zero => simp
    | succ j => simp [ih j (by simpa using h)]

/-- A valid-index read with any default returns an element of the list. -/
theorem getD_mem {α : Type} (d : α) (l : List α) (i : ℕ) (h : i < l.length) :
    l.getD i d ∈ l := by
  rw [List.getD_eq_getElem l d h]
  exact List.getElem_mem h

/-- Counting after updating one position: the count of the predicate gains
the new value's contribution and loses the old one's. -/
theorem countP_set (p : ℕ → Bool) :
    ∀ (l : List ℕ) (i : ℕ) (x : ℕ), i < l.length →
      (l.set i x).countP p + (if p (l.getD i 0) then 1 else 0) =
        l.countP p + (if p x then 1 else 0) := by
  intro l
  induction l with
  | nil => intro i x h; simp at h
  | cons a t ih =>
    intro i x h
    cases i with
    | zero => simp [List.set, List.countP_cons]; omega
    | succ j =>
      simp only [List.set, List.countP_cons, List.getD_cons_succ]
      have := ih j x (by simpa using h)
      omega

/-- Counting occurrences through a map that is injective at the value. -/
theorem count_map_injAt (f : ℕ → ℕ) (a : ℕ) :
    ∀ l : List ℕ, (∀ x ∈ l, f x = f a → x = a) → (l.map f).count (f a) = l.count a := by
  intro l
  induction l with
  | nil => intro _; simp
  | cons b t ih =>
    intro h
    have ht : ∀ x ∈ t, f x = f a → x = a := fun x hx => h x (List.mem_cons_of_mem b hx)
    by_cases hba : b = a
    · subst hba
      simp [List.count_cons, ih ht]
    · have hfba : f b ≠ f a := fun hc => hba (h b (List.mem_cons_self b t) hc)
      simp [List.count_cons, ih ht, hba, hfba]

/-- A lower bound for a left fold of max. -/
theorem le_foldl_max : ∀ (l : List ℕ) (b : ℕ), b ≤ l.foldl max b := by
  intro l
  induction l with
  | nil => intro b; simp
  | cons a t ih =>
    intro b
    exact le_trans (le_max_left b a) (ih (max b a))

/-- Every member of a list is bounded by a left fold of max. -/
theorem mem_le_foldl_max : ∀ (l : List ℕ) (b a : ℕ), a ∈ l → a ≤ l.foldl max b := by
  intro l
  induction l with
  | nil => intro b a h; simp at h
  | cons x t ih =>
    intro b a h
    rcases List.mem_cons.mp h with h1 | h2
    · subst h1
      exact le_trans (le_max_right b a) (le_foldl_max t (max b a))
    · exact ih (max b x) a h2

/-- Every cluster assignment is a valid index below kOf. -/
theorem lt_kOf (asg : List ℕ) (a : ℕ) (h : a ∈ asg) : a < kOf asg := by
  have := mem_le_foldl_max asg 0 a h
  unfold kOf
  omega

/-- A lower bound for a left fold of min over rationals. -/
theorem foldl_min_le : ∀ (l : List ℚ) (b : ℚ), l.foldl min b ≤ b := by
  intro l
  induction l with
  | nil => intro b; simp
  | cons a t ih =>
    intro b
    exact le_trans (ih (min b a)) (min_le_left b a)

/-- A left fold of min is below every member of the list. -/
theorem foldl_min_le_mem : ∀ (l : List ℚ) (b a : ℚ), a ∈ l → l.foldl min b ≤ a := by
  intro l
  induction l with
  | nil => intro b a h; simp at h
  | cons x t ih =>
    intro b a h
    rcases List.mem_cons.mp h with h1 | h2
    · subst h1
      exact le_trans (foldl_min_le t (min b a)) (min_le_right b a)
    · exact ih (min b x) a h2

/-- jsMin is below every member of the list. -/
theorem jsMin_le (l : List ℚ) (a : ℚ) (h : a ∈ l) : jsMin l ≤ a := by
  cases l with
  | nil => simp at h
  | cons x t =>
    rcases List.mem_cons.mp h with h1 | h2
    · subst h1
      exact foldl_min_le t a
    · exact foldl_min_le_mem t x a h2

/-- An upper bound for a left fold of max over rationals. -/
theorem le_foldl_maxQ : ∀ (l : List ℚ) (b : ℚ), b ≤ l.foldl max b := by
  intro l
  induction l with
  | nil => intro b; simp
  | cons a t ih =>
    intro b
    exact le_trans (le_max_left b a) (ih (max b a))

/-- A left fold of max is above every member of the list. -/
theorem le_foldl_max_memQ : ∀ (l : List ℚ) (b a : ℚ), a ∈ l → a ≤ l.foldl max b := by
  intro l
  induction l with
  | nil => intro b a h; simp at h
  | cons x t ih =>
    intro b a h
    rcases List.mem_cons.mp h with h1 | h2
    · subst h1
      exact le_trans (le_max_right b a) (le_foldl_maxQ t (max b a))
    · exact ih (max b x) a h2

/-- jsMax is above every member of the list. -/
theorem le_jsMax (l : List ℚ) (a : ℚ) (h : a ∈ l) : a ≤ jsMax l := by
  cases l with
  | nil => simp at h
  | cons x t =>
    rcases List.mem_cons.mp h with h1 | h2
    · subst h1
      exact le_foldl_maxQ t a
    · exact le_foldl_max_memQ t x a h2

/-
Relevance filter (claim C7).
-/

/-- startsWithL holds exactly when the second list is an initial segment. -/
theorem startsWithL_iff : ∀ (n h : List Char), startsWithL h n = true ↔ ∃ rest, h = n ++ rest := by
  intro n
  induction n with
  | nil =>
    intro h
    cases h with
    | nil => simp [startsWithL]
    | cons c cs => simp [startsWithL]
  | cons d ds ih =>
    intro h
    cases h with
    | nil => simp [startsWithL]
    | cons c cs =>
      constructor
      · intro hs
        simp only [startsWithL, Bool.and_eq_true, beq_iff_eq] at hs
        obtain ⟨rest, hrest⟩ := (ih cs).mp hs.2
        exact ⟨rest, by simp [hs.1, hrest]⟩
      · rintro ⟨rest, hrest⟩
        simp only [List.cons_append, List.cons.injEq] at hrest
        simp only [startsWithL, Bool.and_eq_true, beq_iff_eq]
        exact ⟨hrest.1, (ih cs).mpr ⟨rest, hrest.2⟩⟩

/-- containsL holds exactly when the second list occurs as a contiguous
sublist of the first. -/
theorem containsL_iff : ∀ (h n : List Char),
    containsL h n = true ↔ ∃ pre post, h = pre ++ n ++ post := by
  intro h
  induction h with
  | nil =>
    intro n
    cases n with
    | nil => exact ⟨fun _ => ⟨[], [], rfl⟩, fun _ => rfl⟩
    | cons d ds => simp [containsL]
  | cons c cs ih =>
    intro n
    simp only [containsL, Bool.or_eq_true]
    constructor
    · rintro (hs | hrec)
      · obtain ⟨rest, hrest⟩ := (startsWithL_iff n (c :: cs)).mp hs
        exact ⟨[], rest, by simp [hrest]⟩
      · obtain ⟨pre, post, hpp⟩ := (ih n).mp hrec
        exact ⟨c :: pre, post, by simp [hpp]⟩
    · rintro ⟨pre, post, hpp⟩
      cases pre with
      | nil =>
        left
        exact (startsWithL_iff n (c :: cs)).mpr ⟨post, by simpa using hpp⟩
      | cons p ps =>
        right
        simp only [List.cons_append, List.cons.injEq] at hpp
        exact (ih n).mpr ⟨ps, post, hpp.2⟩

/-- C7: the relevance filter returns true exactly when some phrase of the
fixed topic-phrase list occurs as a case-insensitive literal substring of
the concatenated title and summary; in particular it accepts the title
"Building Trust in Human-AI Teaming" and rejects "Quarterly Earnings
Report", both with an empty summary. -/
theorem C7_relevance_filter :
    (∀ (title summary : String),
      isHumanAICollabRelevant title summary = true ↔
        ∃ p ∈ HUMAN_AI_PHRASES, ∃ pre post,
          lowerChars (title ++ " " ++ summary).data = pre ++ lowerChars p.data ++ post) ∧
    isHumanAICollabRelevant sampleTitleTeaming emptyStr = true ∧
    isHumanAICollabRelevant sampleTitleEarnings emptyStr = false := by
  refine ⟨?_, by decide, by decide⟩
  intro title summary
  unfold isHumanAICollabRelevant
  simp only [List.any_eq_true, containsL_iff]

/-- Witness for C7: the accepted sample title really contains a phrase of
the list as a substring, obtained by applying the filter theorem. -/
theorem C7_witness :
    ∃ p ∈ HUMAN_AI_PHRASES, ∃ pre post,
      lowerChars (sampleTitleTeaming ++ " " ++ emptyStr).data =
        pre ++ lowerChars p.data ++ post :=
  (C7_relevance_filter.1 sampleTitleTeaming emptyStr).mp C7_relevance_filter.2.1

/-
Cluster-count clamping (claim C9).
-/

/-- C9: the cluster count passed to k-means is min(K, N, 20): it never
exceeds the requested K, the corpus size, or 20; it equals the requested K
whenever that is small enough; and when the requested K exceeds the corpus
size it falls back to min(N, 20), so the run proceeds with a feasible k. -/
theorem C9_k_clamp (K n : ℕ) :
    kForRun K n ≤ K ∧ kForRun K n ≤ n ∧ kForRun K n ≤ 20 ∧
    (K ≤ n → K ≤ 20 → kForRun K n = K) ∧ (n < K → kForRun K n = min n 20) := by
  unfold kForRun
  omega

/-- Witness for C9: requesting k = 25 on a 7-document corpus proceeds with
k = 7. -/
theorem C9_witness : kForRun 25 7 = min 7 20 :=
  (C9_k_clamp 25 7).2.2.2.2 (by decide)

/-
TF-IDF bounds (claim C4).
-/

/-- The document frequency of a term never exceeds the corpus size. -/
theorem docFreq_le_length (docs : List (List String)) (term : String) :
    docFreq docs term ≤ docs.length :=
  List.length_filter_le _ docs

/-- C4 (amended): every TF-IDF matrix entry is nonnegative, every smoothed
IDF value is at least 1 (hence never negative or zero), and a term occurring
in every document of the corpus has IDF exactly 1 = ln 1 + 1. -/
theorem C4_tfidf_bounds :
    (∀ docs vocab row x, row ∈ tfIdfMatrix docs vocab → x ∈ row → 0 ≤ x) ∧
    (∀ docs term, 1 ≤ idf docs term) ∧
    (∀ docs term, docFreq docs term = docs.length → idf docs term = 1) := by
  have hidf : ∀ docs term, 1 ≤ idf docs term := by
    intro docs term
    unfold idf
    have hn : docFreq docs term ≤ docs.length := docFreq_le_length docs term
    have hpos : (0 : ℝ) < (docFreq docs term : ℝ) + 1 := by positivity
    have hratio : (1 : ℝ) ≤ ((docs.length : ℝ) + 1) / ((docFreq docs term : ℝ) + 1) := by
      rw [one_le_div hpos]
      have : (docFreq docs term : ℝ) ≤ (docs.length : ℝ) := by exact_mod_cast hn
      linarith
    have := Real.log_nonneg hratio
    linarith
  refine ⟨?_, hidf, ?_⟩
  · intro docs vocab row x hrow hx
    unfold tfIdfMatrix at hrow
    obtain ⟨tokens, _, hrow2⟩ := List.mem_map.mp hrow
    subst hrow2
    obtain ⟨term, _, hx2⟩ := List.mem_map.mp hx
    subst hx2
    unfold tfIdfEntry
    have htf : (0 : ℚ) ≤ tfVal tokens term := by
      unfold tfVal
      apply div_nonneg
      · exact_mod_cast Nat.zero_le _
      · by_cases h0 : tokens.length = 0
        · simp [h0]
        · simp only [h0, if_false]
          exact_mod_cast Nat.zero_le _
    have h1 : (0 : ℝ) ≤ ((tfVal tokens term : ℚ) : ℝ) := by exact_mod_cast htf
    exact mul_nonneg h1 (le_trans zero_le_one (hidf docs term))
  · intro docs term hfreq
    unfold idf
    rw [hfreq]
    rw [div_self (by positivity)]
    simp [Real.log_one]

/-- Counterexample for C4 as stated: on a two-document corpus in which the
term occurs in both documents (docFreq = N), the computed IDF is not
ln 2 - it equals 1. -/
theorem C4_counterexample :
    docFreq docsUbiq termX = docsUbiq.length ∧ idf docsUbiq termX ≠ Real.log 2 := by
  refine ⟨by decide, ?_⟩
  have h1 : idf docsUbiq termX = 1 := by
    have hd : docFreq docsUbiq termX = 2 := by decide
    unfold idf
    rw [hd]
    norm_num [docsUbiq]
  rw [h1]
  have h2 : Real.log 2 < 1 := lt_trans Real.log_two_lt_d9 (by norm_num)
  intro hc
  rw [hc] at h2
  exact lt_irrefl _ h2

/-- Witness for C4: the ubiquitous term of the concrete two-document corpus
gets IDF exactly 1, by applying the bounds theorem. -/
theorem C4_witness : idf docsUbiq termX = 1 :=
  C4_tfidf_bounds.2.2 docsUbiq termX (by decide)

/-
Identifier dedup in the orchestrator (claim C6).
-/

/-- The dedup filter only drops elements: its output is a sublist. -/
theorem dedupById_sublist : ∀ (l : List DocNode) (seen : List String),
    (dedupById seen l).Sublist l := by
  intro l
  induction l with
  | nil => intro seen; simp [dedupById]
  | cons a t ih =>
    intro seen
    unfold dedupById
    by_cases ha : a.id ∈ seen
    · rw [if_pos ha]
      exact (ih seen).cons a
    · rw [if_neg ha]
      exact (ih (a.id :: seen)).cons₂ a

/-- Every node kept by the dedup filter has an unseen id and is the first
node of the input carrying its id. -/
theorem dedupById_first : ∀ (l : List DocNode) (seen : List String) (n : DocNode),
    n ∈ dedupById seen l →
      n.id ∉ seen ∧ (l.filter fun m => m.id == n.id).head? = some n := by
  intro l
  induction l with
  | nil => intro seen n h; simp [dedupById] at h
  | cons a t ih =>
    intro seen n h
    unfold dedupById at h
    by_cases ha : a.id ∈ seen
    · rw [if_pos ha] at h
      obtain ⟨hns, hfilt⟩ := ih seen n h
      have hne : (a.id == n.id) = false := by
        by_cases heq : a.id = n.id
        · exact absurd (heq ▸ ha) hns
        · simp [heq]
      exact ⟨hns, by simp [List.filter_cons, hne, hfilt]⟩
    · rw [if_neg ha] at h
      rcases List.mem_cons.mp h with h1 | h2
      · subst h1
        exact ⟨ha, by simp [List.filter_cons]⟩
      · obtain ⟨hns, hfilt⟩ := ih (a.id :: seen) n h2
        have hns2 : n.id ≠ a.id ∧ n.id ∉ seen := by
          constructor
          · intro hc
            exact hns (by rw [hc]; exact List.mem_cons_self _ _)
          · intro hc
            exact hns (List.mem_cons_of_mem _ hc)
        have hne : (a.id == n.id) = false := by
          by_cases heq : a.id = n.id
          · exact absurd heq.symm hns2.1
          · simp [heq]
        exact ⟨hns2.2, by simp [List.filter_cons, hne, hfilt]⟩

/-- The ids kept by the dedup filter are pairwise distinct and all unseen. -/
theorem dedupById_nodup : ∀ (l : List DocNode) (seen : List String),
    ((dedupById seen l).map DocNode.id).Nodup ∧
      ∀ i ∈ (dedupById seen l).map DocNode.id, i ∉ seen := by
  intro l
  induction l with
  | nil => intro seen; simp [dedupById]
  | cons a t ih =>
    intro seen
    unfold dedupById
    by_cases ha : a.id ∈ seen
    · rw [if_pos ha]
      exact ih seen
    · rw [if_neg ha]
      obtain ⟨hnd, hunseen⟩ := ih (a.id :: seen)
      constructor
      · simp only [List.map_cons, List.nodup_cons]
        refine ⟨?_, hnd⟩
        intro hc
        exact hunseen a.id hc (List.mem_cons_self _ _)
      · intro i hi
        simp only [List.map_cons, List.mem_cons] at hi
        rcases hi with h1 | h2
        · exact h1 ▸ ha
        · intro hc
          exact hunseen i h2 (List.mem_cons_of_mem _ hc)

/-- No id is lost: every input node whose id is unseen has its id present in
the dedup output. -/
theorem dedupById_covers : ∀ (l : List DocNode) (seen : List String) (n : DocNode),
    n ∈ l → n.id ∉ seen → n.id ∈ (dedupById seen l).map DocNode.id := by
  intro l
  induction l with
  | nil => intro seen n h; simp at h
  | cons a t ih =>
    intro seen n h hns
    unfold dedupById
    rcases List.mem_cons.mp h with h1 | h2
    · subst h1
      rw [if_neg hns]
      simp
    · by_cases ha : a.id ∈ seen
      · rw [if_pos ha]
        exact ih seen n h2 hns
      · rw [if_neg ha]
        by_cases heq : n.id = a.id
        · simp [heq]
        · simp only [List.map_cons, List.mem_cons]
          right
          refine ih (a.id :: seen) n h2 ?_
          intro hc
          rcases List.mem_cons.mp hc with hc1 | hc2
          · exact heq hc1
          · exact hns hc2

/-- C6: after merging existing-origin nodes (iterated first) with ingested
nodes and deduplicating by id, the output ids are pairwise distinct, the
output is a sublist of the input carrying every input id, every kept node is
the first input node with its id, and in particular a node whose id already
occurs among the existing nodes is itself an existing node - the ingested
duplicate is discarded. -/
theorem C6_dedup_ids (g ing : List DocNode) :
    ((dedupById [] (g ++ ing)).map DocNode.id).Nodup ∧
    (dedupById [] (g ++ ing)).Sublist (g ++ ing) ∧
    (∀ n ∈ g ++ ing, n.id ∈ (dedupById [] (g ++ ing)).map DocNode.id) ∧
    (∀ n ∈ dedupById [] (g ++ ing),
      ((g ++ ing).filter fun m => m.id == n.id).head? = some n) ∧
    (∀ n ∈ dedupById [] (g ++ ing), n.id ∈ g.map DocNode.id → n ∈ g) := by
  refine ⟨(dedupById_nodup (g ++ ing) []).1, dedupById_sublist (g ++ ing) [],
    fun n hn => dedupById_covers (g ++ ing) [] n hn (by simp),
    fun n hn => (dedupById_first (g ++ ing) [] n hn).2, ?_⟩
  intro n hn hg
  have hfirst := (dedupById_first (g ++ ing) [] n hn).2
  rw [List.filter_append] at hfirst
  obtain ⟨e, he, heid⟩ := List.mem_map.mp hg
  have hef : e ∈ g.filter fun m => m.id == n.id := by
    rw [List.mem_filter]
    exact ⟨he, by simp [heid]⟩
  have hne : (g.filter fun m => m.id == n.id) ≠ [] := List.ne_nil_of_mem hef
  rw [List.head?_append] at hfirst
  cases hgf : (g.filter fun m => m.id == n.id).head? with
  | none => exact absurd (List.head?_eq_none_iff.mp hgf) hne
  | some m =>
    rw [hgf] at hfirst
    simp only [Option.or_some] at hfirst
    have : m = n := by injection hfirst
    subst this
    exact List.mem_of_mem_filter (List.mem_of_mem_head? hgf)

/-- Witness for C6: on a concrete graph/ingest pair sharing the id doc-1,
the kept doc-1 record is the graph one. -/
theorem C6_witness :
    (⟨"doc-1", "graph-payload"⟩ : DocNode) ∈
      [(⟨"doc-1", "graph-payload"⟩ : DocNode)] :=
  (C6_dedup_ids [⟨"doc-1", "graph-payload"⟩]
      [⟨"doc-1", "ingest-payload"⟩, ⟨"doc-2", "ingest-two"⟩]).2.2.2.2
    ⟨"doc-1", "graph-payload"⟩ (by decide) (by decide)

/-
Viewport containment (claim C1).
-/

/-- One axis of the viewport scaling stays between the endpoints: mapping a
value lying between the data minimum and maximum lands inside [lo, hi]. -/
theorem scale_coord_mem (lo hi v mn mx : ℚ) (hlh : lo ≤ hi) (h1 : mn ≤ v) (h2 : v ≤ mx) :
    lo ≤ lo + (v - mn) / (if mx - mn = 0 then 1 else mx - mn) * (hi - lo) ∧
      lo + (v - mn) / (if mx - mn = 0 then 1 else mx - mn) * (hi - lo) ≤ hi := by
  by_cases hz : mx - mn = 0
  · have hveq : v = mn := le_antisymm (by linarith) h1
    rw [if_pos hz, hveq]
    constructor
    · simp
    · simp
      linarith
  · rw [if_neg hz]
    have hpos : 0 < mx - mn := lt_of_le_of_ne (by linarith) (Ne.symm hz)
    have ht0 : 0 ≤ (v - mn) / (mx - mn) := div_nonneg (by linarith) (le_of_lt hpos)
    have ht1 : (v - mn) / (mx - mn) ≤ 1 := (div_le_one hpos).mpr (by linarith)
    constructor
    · nlinarith
    · nlinarith

/-- C1 (amended): the positions produced by the viewport scaling step do lie
inside the viewport rectangle; it is the subsequent neat-composition step
that moves the persisted embeddings, possibly outside the viewport. -/
theorem C1_scale_containment (points : List (ℚ × ℚ)) (q : ℚ × ℚ)
    (hq : q ∈ scaleToViewBox points) :
    viewBox.xMin ≤ q.1 ∧ q.1 ≤ viewBox.xMax ∧ viewBox.yMin ≤ q.2 ∧ q.2 ≤ viewBox.yMax := by
  unfold scaleToViewBox at hq
  simp only [List.mem_map] at hq
  obtain ⟨p, hp, hq2⟩ := hq
  subst hq2
  have hx1 : jsMin (points.map Prod.fst) ≤ p.1 := jsMin_le _ _ (List.mem_map_of_mem _ hp)
  have hx2 : p.1 ≤ jsMax (points.map Prod.fst) := le_jsMax _ _ (List.mem_map_of_mem _ hp)
  have hy1 : jsMin (points.map Prod.snd) ≤ p.2 := jsMin_le _ _ (List.mem_map_of_mem _ hp)
  have hy2 : p.2 ≤ jsMax (points.map Prod.snd) := le_jsMax _ _ (List.mem_map_of_mem _ hp)
  have hX := scale_coord_mem viewBox.xMin viewBox.xMax p.1 _ _ (by norm_num [viewBox]) hx1 hx2
  have hY := scale_coord_mem viewBox.yMin viewBox.yMax p.2 _ _ (by norm_num [viewBox]) hy1 hy2
  exact ⟨hX.1, hX.2, hY.1, hY.2⟩

/-- Witness for C1: the single point of a one-point corpus is scaled to the
viewport corner (80, 60), which lies inside the viewport. -/
theorem C1_witness :
    viewBox.xMin ≤ ((80 : ℚ), (60 : ℚ)).1 ∧ ((80 : ℚ), (60 : ℚ)).1 ≤ viewBox.xMax ∧
      viewBox.yMin ≤ ((80 : ℚ), (60 : ℚ)).2 ∧ ((80 : ℚ), (60 : ℚ)).2 ≤ viewBox.yMax :=
  C1_scale_containment [(0, 0)] (80, 60) (by
    have h : scaleToViewBox [(0, 0)] = [(80, 60)] := by
      norm_num [scaleToViewBox, jsMin, jsMax, viewBox]
    rw [h]
    exact List.mem_singleton.mpr rfl)

/-- Counterexample for C1 as stated: on a concrete six-document run (two
clusters of three, already spanning the viewport, so scaling is the
identity and no small-cluster merge happens), the persisted embedding of
document 5 has y-coordinate -483/5, strictly below yMin = 60 - the
neat-composition step moves it outside the viewport. -/
theorem C1_counterexample :
    ((pipelineEmbeddings c1RawPoints c1Assign).getD 5 (0, 0)).2 < ((viewBox.yMin : ℚ) : ℝ) ∧
      (pipelineEmbeddings c1RawPoints c1Assign).length = 6 := by
  have h1 : scaleToViewBox c1RawPoints = c1RawPoints := by
    norm_num [scaleToViewBox, jsMin, jsMax, viewBox, c1RawPoints, List.map, List.foldl]
  have h2 : mergeSmallClusters c1RawPoints c1Assign = (c1Assign, 2) := by decide
  have hf : (⌊(7 / 10 : ℚ)⌋₊ : ℕ) = 0 := by
    rw [Nat.floor_eq_zero]
    norm_num
  have hm : (1 ⊔ 0 : ℕ) = 1 := by decide
  constructor
  · rw [pipelineEmbeddings]
    simp only [h1, h2]
    norm_num [applyNeatComposition, accumSums, initCounts, bumpCounts, viewBox,
      c1RawPoints, c1Assign, hf, hm, List.zip, List.zipWith, List.foldl, List.set,
      List.getD, List.get?, List.range, List.map, List.replicate, mul_zero, zero_div,
      zero_sub, Real.cos_neg, Real.sin_neg, Real.cos_pi_div_two, Real.sin_pi_div_two]
  · rw [pipelineEmbeddings]
    simp only [h1, h2]
    simp [applyNeatComposition, c1RawPoints, c1Assign]


/-
Merge while-loop analysis (claims C10, C2, C3, C5).
-/

/-- What a successful findIndex scan for an undersized cluster guarantees,
stated for the auxiliary scan with an arbitrary starting index. -/
theorem findSmallAux_some : ∀ (l : List ℕ) (i j : ℕ), findSmallAux l i = some j →
    i ≤ j ∧ j - i < l.length ∧ 0 < l.getD (j - i) 0 ∧ l.getD (j - i) 0 < MIN_CLUSTER_SIZE := by
  intro l
  induction l with
  | nil => intro i j h; simp [findSmallAux] at h
  | cons cnt rest ih =>
    intro i j h
    unfold findSmallAux at h
    by_cases hc : 0 < cnt ∧ cnt < MIN_CLUSTER_SIZE
    · rw [if_pos hc] at h
      injection h with h
      subst h
      rw [Nat.sub_self]
      refine ⟨le_refl i, by simp, ?_, ?_⟩
      · rw [List.getD_cons_zero]; exact hc.1
      · rw [List.getD_cons_zero]; exact hc.2
    · rw [if_neg hc] at h
      obtain ⟨h1, h2, h3, h4⟩ := ih (i + 1) j h
      have hji : j - i = (j - (i + 1)) + 1 := by omega
      rw [hji, List.getD_cons_succ]
      exact ⟨by omega, by simp; omega, h3, h4⟩

/-- A successful findSmall returns a valid index of a non-empty undersized
cluster. -/
theorem findSmall_some (counts : List ℕ) (j : ℕ) (h : findSmall counts = some j) :
    j < counts.length ∧ 0 < counts.getD j 0 ∧ counts.getD j 0 < MIN_CLUSTER_SIZE := by
  obtain ⟨_, h2, h3, h4⟩ := findSmallAux_some counts 0 j h
  rw [Nat.sub_zero] at h2 h3 h4
  exact ⟨h2, h3, h4⟩

/-- A failed scan means no position is non-empty and undersized. -/
theorem findSmallAux_none : ∀ (l : List ℕ) (i : ℕ), findSmallAux l i = none →
    ∀ m, ¬(0 < l.getD m 0 ∧ l.getD m 0 < MIN_CLUSTER_SIZE) := by
  intro l
  induction l with
  | nil => intro i _ m; simp
  | cons cnt rest ih =>
    intro i h m
    unfold findSmallAux at h
    by_cases hc : 0 < cnt ∧ cnt < MIN_CLUSTER_SIZE
    · rw [if_pos hc] at h; exact absurd h (by simp)
    · rw [if_neg hc] at h
      cases m with
      | zero => rw [List.getD_cons_zero]; exact hc
      | succ m2 => rw [List.getD_cons_succ]; exact ih (i + 1) h m2

/-- After a failed findSmall every cluster is empty or large enough. -/
theorem findSmall_none (counts : List ℕ) (h : findSmall counts = none) :
    ∀ m, counts.getD m 0 = 0 ∨ MIN_CLUSTER_SIZE ≤ counts.getD m 0 := by
  intro m
  have := findSmallAux_none counts 0 h m
  omega

/-- The nearest-cluster scan never discards an already-found candidate. -/
theorem scanNearest_some_of_some (cents : List (ℚ × ℚ)) (counts : List ℕ) (small : ℕ) :
    ∀ (cs : List ℕ) (x : ℕ × ℚ), scanNearest cents counts small cs (some x) ≠ none := by
  intro cs
  induction cs with
  | nil => intro x h; simp [scanNearest] at h
  | cons c2 rest ih =>
    intro x h
    unfold scanNearest at h
    by_cases hskip : c2 = small ∨ counts.getD c2 0 = 0
    · rw [if_pos hskip] at h
      exact ih x h
    · rw [if_neg hskip] at h
      simp only [betterOf] at h
      by_cases hlt : dist2 (cents.getD c2 (0, 0)) (cents.getD small (0, 0)) < x.2
      · rw [if_pos hlt] at h
        exact ih _ h
      · rw [if_neg hlt] at h
        exact ih _ h

/-- A failed nearest-cluster scan started from no candidate means every
scanned index was the small cluster itself or an empty cluster. -/
theorem scanNearest_none (cents : List (ℚ × ℚ)) (counts : List ℕ) (small : ℕ) :
    ∀ (cs : List ℕ) (best : Option (ℕ × ℚ)),
      scanNearest cents counts small cs best = none →
      best = none ∧ ∀ c2 ∈ cs, c2 = small ∨ counts.getD c2 0 = 0 := by
  intro cs
  induction cs with
  | nil =>
    intro best h
    exact ⟨h, by simp⟩
  | cons c2 rest ih =>
    intro best h
    unfold scanNearest at h
    by_cases hskip : c2 = small ∨ counts.getD c2 0 = 0
    · rw [if_pos hskip] at h
      obtain ⟨hb, hrest⟩ := ih best h
      refine ⟨hb, ?_⟩
      intro c3 hc3
      rcases List.mem_cons.mp hc3 with h1 | h2
      · exact h1 ▸ hskip
      · exact hrest c3 h2
    · rw [if_neg hskip] at h
      cases best with
      | none => exact absurd h (scanNearest_some_of_some cents counts small rest _)
      | some nd =>
        simp only [betterOf] at h
        by_cases hlt : dist2 (cents.getD c2 (0, 0)) (cents.getD small (0, 0)) < nd.2
        · rw [if_pos hlt] at h
          exact absurd h (scanNearest_some_of_some cents counts small rest _)
        · rw [if_neg hlt] at h
          exact absurd h (scanNearest_some_of_some cents counts small rest _)

/-- Full characterisation of a successful nearest-cluster scan: the result
either is the inherited candidate or a valid freshly-scanned cluster, its
distance is minimal over all scanned valid clusters, and it never exceeds
the inherited candidate's distance. -/
theorem scanNearest_spec (cents : List (ℚ × ℚ)) (counts : List ℕ) (small : ℕ) :
    ∀ (cs : List ℕ) (best : Option (ℕ × ℚ)) (nr : ℕ) (dd : ℚ),
      scanNearest cents counts small cs best = some (nr, dd) →
      (best = some (nr, dd) ∨
        (nr ∈ cs ∧ nr ≠ small ∧ 0 < counts.getD nr 0 ∧
          dd = dist2 (cents.getD nr (0, 0)) (cents.getD small (0, 0)))) ∧
      (∀ c2 ∈ cs, c2 ≠ small → 0 < counts.getD c2 0 →
        dd ≤ dist2 (cents.getD c2 (0, 0)) (cents.getD small (0, 0))) ∧
      (∀ x, best = some x → dd ≤ x.2) := by
  intro cs
  induction cs with
  | nil =>
    intro best nr dd h
    simp only [scanNearest] at h
    refine ⟨Or.inl h, by simp, ?_⟩
    intro x hx
    rw [hx] at h
    injection h with h2
    rw [h2]
  | cons c2 rest ih =>
    intro best nr dd h
    unfold scanNearest at h
    by_cases hskip : c2 = small ∨ counts.getD c2 0 = 0
    · rw [if_pos hskip] at h
      obtain ⟨ih1, ih2, ih3⟩ := ih best nr dd h
      refine ⟨?_, ?_, ih3⟩
      · rcases ih1 with h1 | h1
        · exact Or.inl h1
        · exact Or.inr ⟨List.mem_cons_of_mem c2 h1.1, h1.2⟩
      · intro c3 hc3 hne hpos
        rcases List.mem_cons.mp hc3 with h1 | h2
        · subst h1
          rcases hskip with hs | hs
          · exact absurd hs hne
          · omega
        · exact ih2 c3 h2 hne hpos
    · rw [if_neg hskip] at h
      push_neg at hskip
      have hc2pos : 0 < counts.getD c2 0 := Nat.pos_of_ne_zero hskip.2
      cases best with
      | none =>
        simp only [betterOf] at h
        obtain ⟨ih1, ih2, ih3⟩ := ih _ nr dd h
        have hddle : dd ≤ dist2 (cents.getD c2 (0, 0)) (cents.getD small (0, 0)) :=
          ih3 _ rfl
        refine ⟨?_, ?_, by simp⟩
        · rcases ih1 with h1 | h1
          · injection h1 with h1
            have ha : c2 = nr := congrArg Prod.fst h1
            have hb : dist2 (cents.getD c2 (0, 0)) (cents.getD small (0, 0)) = dd :=
              congrArg Prod.snd h1
            subst ha
            exact Or.inr ⟨List.mem_cons_self c2 rest, hskip.1, hc2pos, hb.symm⟩
          · exact Or.inr ⟨List.mem_cons_of_mem c2 h1.1, h1.2⟩
        · intro c3 hc3 hne hpos
          rcases List.mem_cons.mp hc3 with h1 | h2
          · subst h1; exact hddle
          · exact ih2 c3 h2 hne hpos
      | some nd =>
        simp only [betterOf] at h
        by_cases hlt : dist2 (cents.getD c2 (0, 0)) (cents.getD small (0, 0)) < nd.2
        · rw [if_pos hlt] at h
          obtain ⟨ih1, ih2, ih3⟩ := ih _ nr dd h
          have hddle : dd ≤ dist2 (cents.getD c2 (0, 0)) (cents.getD small (0, 0)) :=
            ih3 _ rfl
          refine ⟨?_, ?_, ?_⟩
          · rcases ih1 with h1 | h1
            · injection h1 with h1
              have ha : c2 = nr := congrArg Prod.fst h1
              have hb : dist2 (cents.getD c2 (0, 0)) (cents.getD small (0, 0)) = dd :=
                congrArg Prod.snd h1
              subst ha
              exact Or.inr ⟨List.mem_cons_self c2 rest, hskip.1, hc2pos, hb.symm⟩
            · exact Or.inr ⟨List.mem_cons_of_mem c2 h1.1, h1.2⟩
          · intro c3 hc3 hne hpos
            rcases List.mem_cons.mp hc3 with h1 | h2
            · subst h1; exact hddle
            · exact ih2 c3 h2 hne hpos
          · intro x hx
            injection hx with hx
            subst hx
            exact le_trans hddle (le_of_lt hlt)
        · rw [if_neg hlt] at h
          obtain ⟨ih1, ih2, ih3⟩ := ih _ nr dd h
          have hddnd : dd ≤ nd.2 := ih3 nd rfl
          refine ⟨?_, ?_, ?_⟩
          · rcases ih1 with h1 | h1
            · exact Or.inl h1
            · exact Or.inr ⟨List.mem_cons_of_mem c2 h1.1, h1.2⟩
          · intro c3 hc3 hne hpos
            rcases List.mem_cons.mp hc3 with h1 | h2
            · subst h1
              exact le_trans hddnd (not_lt.mp hlt)
            · exact ih2 c3 h2 hne hpos
          · intro x hx
            injection hx with hx
            subst hx
            exact hddnd

/-- A successful findNearest returns another non-empty cluster of minimal
squared centroid distance among all other non-empty clusters. -/
theorem findNearest_some (cents : List (ℚ × ℚ)) (counts : List ℕ) (small nr : ℕ)
    (h : findNearest cents counts small = some nr) :
    nr < counts.length ∧ nr ≠ small ∧ 0 < counts.getD nr 0 ∧
      ∀ c2, c2 < counts.length → c2 ≠ small → 0 < counts.getD c2 0 →
        dist2 (cents.getD nr (0, 0)) (cents.getD small (0, 0)) ≤
          dist2 (cents.getD c2 (0, 0)) (cents.getD small (0, 0)) := by
  unfold findNearest at h
  cases hs : scanNearest cents counts small (List.range counts.length) none with
  | none => rw [hs] at h; exact absurd h (by simp)
  | some nd =>
    obtain ⟨n1, d1⟩ := nd
    rw [hs] at h
    simp only [Option.map_some'] at h
    injection h with h
    rw [← h]
    obtain ⟨h1, h2, _⟩ := scanNearest_spec cents counts small _ none n1 d1 hs
    rcases h1 with h1 | h1
    · exact absurd h1 (by simp)
    · refine ⟨List.mem_range.mp h1.1, h1.2.1, h1.2.2.1, ?_⟩
      intro c2 hc2 hne hpos
      have := h2 c2 (List.mem_range.mpr hc2) hne hpos
      rw [← h1.2.2.2]
      exact this

/-- A failed findNearest means every other cluster is empty. -/
theorem findNearest_none (cents : List (ℚ × ℚ)) (counts : List ℕ) (small : ℕ)
    (h : findNearest cents counts small = none) :
    ∀ c2, c2 < counts.length → c2 = small ∨ counts.getD c2 0 = 0 := by
  unfold findNearest at h
  cases hs : scanNearest cents counts small (List.range counts.length) none with
  | none =>
    intro c2 hc2
    exact (scanNearest_none cents counts small _ none hs).2 c2 (List.mem_range.mpr hc2)
  | some nd => rw [hs] at h; exact absurd h (by simp)

/-- Eliminating a successful merge step into its parts. -/
theorem mergeStep_some_elim (cents : List (ℚ × ℚ)) (st st2 : List ℕ × List ℕ)
    (h : mergeStep cents st = some st2) :
    ∃ small nearest, findSmall st.1 = some small ∧
      findNearest cents st.1 small = some nearest ∧
      st2 = ((st.1.set nearest (st.1.getD nearest 0 + st.1.getD small 0)).set small 0,
        st.2.map fun a => if a = small then nearest else a) := by
  unfold mergeStep at h
  cases hs : findSmall st.1 with
  | none => rw [hs] at h; exact absurd h (by simp)
  | some small =>
    rw [hs] at h
    simp only [Option.some_bind] at h
    cases hn : findNearest cents st.1 small with
    | none => rw [hn] at h; exact absurd h (by simp)
    | some nearest =>
      rw [hn] at h
      simp only [Option.map_some'] at h
      injection h with h
      exact ⟨small, nearest, rfl, hn, h.symm⟩

/-- A merge step returns none exactly in the loop's break situations: no
undersized non-empty cluster, or no merge target. -/
theorem mergeStep_none_elim (cents : List (ℚ × ℚ)) (st : List ℕ × List ℕ)
    (h : mergeStep cents st = none) :
    findSmall st.1 = none ∨
      ∃ small, findSmall st.1 = some small ∧ findNearest cents st.1 small = none := by
  unfold mergeStep at h
  cases hs : findSmall st.1 with
  | none => exact Or.inl rfl
  | some small =>
    rw [hs] at h
    simp only [Option.some_bind] at h
    cases hn : findNearest cents st.1 small with
    | none => exact Or.inr ⟨small, rfl, hn⟩
    | some nearest => rw [hn] at h; exact absurd h (by simp)

/-- Each successful merge step zeroes exactly one previously non-empty
cluster: the number of non-empty clusters drops by exactly one. -/
theorem mergeStep_countPos (cents : List (ℚ × ℚ)) (st st2 : List ℕ × List ℕ)
    (h : mergeStep cents st = some st2) :
    countPos st2.1 + 1 = countPos st.1 ∧
      ∃ c, c < st.1.length ∧ 0 < st.1.getD c 0 ∧ st2.1.getD c 0 = 0 := by
  obtain ⟨small, nearest, hs, hn, hst⟩ := mergeStep_some_elim cents st st2 h
  obtain ⟨hsl, hspos, _⟩ := findSmall_some st.1 small hs
  obtain ⟨hnl, hnne, hnpos, _⟩ := findNearest_some cents st.1 small nearest hn
  have hlen1 : (st.1.set nearest (st.1.getD nearest 0 + st.1.getD small 0)).length =
      st.1.length := List.length_set st.1 nearest _
  have e1 := countP_set (fun c => decide (0 < c)) st.1 nearest
    (st.1.getD nearest 0 + st.1.getD small 0) hnl
  have e2 := countP_set (fun c => decide (0 < c))
    (st.1.set nearest (st.1.getD nearest 0 + st.1.getD small 0)) small 0
    (by rw [hlen1]; exact hsl)
  have hgd : (st.1.set nearest (st.1.getD nearest 0 + st.1.getD small 0)).getD small 0 =
      st.1.getD small 0 := getD_set_ne 0 _ st.1 nearest small hnne
  rw [hgd] at e2
  simp only [decide_eq_true_eq] at e1 e2
  rw [if_pos hnpos, if_pos (show 0 < st.1.getD nearest 0 + st.1.getD small 0 by omega)] at e1
  rw [if_pos hspos, if_neg (lt_irrefl 0)] at e2
  constructor
  · rw [hst]
    unfold countPos
    simp only [decide_eq_true_eq]
    omega
  · refine ⟨small, hsl, hspos, ?_⟩
    rw [hst]
    exact getD_set_eq 0 0 _ small (by rw [hlen1]; exact hsl)

/-- C10: the merge while-loop terminates: the number of non-empty clusters
is at most the number of clusters k, and every iteration either exits (no
undersized non-empty cluster, or no merge target) or zeroes one previously
non-empty cluster, strictly decreasing the number of non-empty clusters -
so the loop runs at most k times. -/
theorem C10_merge_loop_terminates (cents : List (ℚ × ℚ)) (st : List ℕ × List ℕ) :
    countPos st.1 ≤ st.1.length ∧
      (mergeStep cents st = none ∨
        ∃ st2, mergeStep cents st = some st2 ∧ countPos st2.1 < countPos st.1 ∧
          ∃ c, c < st.1.length ∧ 0 < st.1.getD c 0 ∧ st2.1.getD c 0 = 0) := by
  refine ⟨List.countP_le_length _, ?_⟩
  cases h : mergeStep cents st with
  | none => exact Or.inl rfl
  | some st2 =>
    obtain ⟨hdec, c, hc⟩ := mergeStep_countPos cents st st2 h
    exact Or.inr ⟨st2, rfl, by omega, c, hc⟩

/-- Counting in an assignment list after reassigning one cluster id to
another: the target absorbs the source's members, the source empties, and
every other cluster is untouched. -/
theorem count_map_reassign (small nearest : ℕ) (hne : nearest ≠ small) :
    ∀ (asg : List ℕ) (c : ℕ),
      (asg.map fun a => if a = small then nearest else a).count c =
        if c = small then 0
        else if c = nearest then asg.count nearest + asg.count small
        else asg.count c := by
  intro asg
  induction asg with
  | nil => intro c; simp
  | cons a t ih =>
    intro c
    simp only [List.map_cons, List.count_cons, ih c]
    by_cases has : a = small <;> by_cases hcs : c = small <;> by_cases hcn : c = nearest <;>
      by_cases hac : a = c <;> by_cases han : a = nearest <;>
        simp_all <;> omega

/-- A merge step preserves the loop invariant. -/
theorem MergeInv_step (k : ℕ) (cents : List (ℚ × ℚ)) (st st2 : List ℕ × List ℕ)
    (hinv : MergeInv k st) (h : mergeStep cents st = some st2) : MergeInv k st2 := by
  obtain ⟨hlen, hvalid, hcount⟩ := hinv
  obtain ⟨small, nearest, hs, hn, hst⟩ := mergeStep_some_elim cents st st2 h
  obtain ⟨hsl, hspos, _⟩ := findSmall_some st.1 small hs
  obtain ⟨hnl, hnne, hnpos, _⟩ := findNearest_some cents st.1 small nearest hn
  have hlen1 : (st.1.set nearest (st.1.getD nearest 0 + st.1.getD small 0)).length =
      st.1.length := List.length_set st.1 nearest _
  rw [hst]
  refine ⟨?_, ?_, ?_⟩
  · simp [List.length_set, hlen]
  · intro a ha
    simp only [List.mem_map] at ha
    obtain ⟨b, hb, hba⟩ := ha
    by_cases hbs : b = small
    · rw [← hba, if_pos hbs]
      rw [← hlen]
      exact hnl
    · rw [← hba, if_neg hbs]
      exact hvalid b hb
  · intro c
    rw [count_map_reassign small nearest hnne st.2 c]
    by_cases hcs : c = small
    · rw [if_pos hcs, hcs]
      exact getD_set_eq 0 0 _ small (by rw [hlen1]; exact hsl)
    · rw [if_neg hcs]
      have hread : ((st.1.set nearest (st.1.getD nearest 0 + st.1.getD small 0)).set
          small 0).getD c 0 =
          (st.1.set nearest (st.1.getD nearest 0 + st.1.getD small 0)).getD c 0 :=
        getD_set_ne 0 0 _ small c (fun hc => hcs hc.symm)
      rw [hread]
      by_cases hcn : c = nearest
      · rw [if_pos hcn, hcn]
        rw [getD_set_eq 0 _ st.1 nearest hnl]
        rw [hcount nearest, hcount small]
      · rw [if_neg hcn]
        rw [getD_set_ne 0 _ st.1 nearest c (fun hc => hcn hc.symm)]
        exact hcount c

/-- The merge loop preserves the loop invariant. -/
theorem mergeGo_inv (k : ℕ) (cents : List (ℚ × ℚ)) :
    ∀ (fuel : ℕ) (st : List ℕ × List ℕ), MergeInv k st →
      MergeInv k (mergeGo cents fuel st) := by
  intro fuel
  induction fuel with
  | zero => intro st h; exact h
  | succ f ih =>
    intro st h
    unfold mergeGo
    cases hs : mergeStep cents st with
    | none => exact h
    | some st2 => exact ih st2 (MergeInv_step k cents st st2 h hs)

/-- Given enough fuel, the merge loop reaches a state where the loop's exit
condition holds. -/
theorem mergeGo_fix (cents : List (ℚ × ℚ)) :
    ∀ (fuel : ℕ) (st : List ℕ × List ℕ), countPos st.1 < fuel →
      mergeStep cents (mergeGo cents fuel st) = none := by
  intro fuel
  induction fuel with
  | zero => intro st h; omega
  | succ f ih =>
    intro st h
    unfold mergeGo
    cases hs : mergeStep cents st with
    | none => exact hs
    | some st2 =>
      apply ih
      have := (mergeStep_countPos cents st st2 hs).1
      omega

/-- The length of the counts array survives the increment loop. -/
theorem bumpCounts_length : ∀ (asg : List ℕ) (cs : List ℕ),
    (bumpCounts cs asg).length = cs.length := by
  intro asg
  induction asg with
  | nil => intro cs; rfl
  | cons a t ih =>
    intro cs
    have hstep : bumpCounts cs (a :: t) = bumpCounts (cs.set a (cs.getD a 0 + 1)) t := rfl
    rw [hstep, ih, List.length_set]

/-- The counts array built by the increment loop records exact member
counts, provided every assignment is a valid index. -/
theorem bumpCounts_getD : ∀ (asg : List ℕ) (cs : List ℕ),
    (∀ a ∈ asg, a < cs.length) →
    ∀ c, (bumpCounts cs asg).getD c 0 = cs.getD c 0 + asg.count c := by
  intro asg
  induction asg with
  | nil => intro cs _ c; simp [bumpCounts]
  | cons a t ih =>
    intro cs hval c
    have hstep : bumpCounts cs (a :: t) = bumpCounts (cs.set a (cs.getD a 0 + 1)) t := rfl
    rw [hstep]
    have hlen : (cs.set a (cs.getD a 0 + 1)).length = cs.length := List.length_set cs a _
    have ht : ∀ x ∈ t, x < (cs.set a (cs.getD a 0 + 1)).length := by
      rw [hlen]
      exact fun x hx => hval x (List.mem_cons_of_mem a hx)
    rw [ih _ ht c]
    by_cases hac : a = c
    · subst hac
      rw [getD_set_eq 0 _ cs a (hval a (List.mem_cons_self a t))]
      simp [List.count_cons]
      omega
    · rw [getD_set_ne 0 _ cs a c hac]
      simp [List.count_cons, hac]

/-- initCounts has length k. -/
theorem initCounts_length (k : ℕ) (asg : List ℕ) : (initCounts k asg).length = k := by
  unfold initCounts
  rw [bumpCounts_length, List.length_replicate]

/-- initCounts records exact member counts for every cluster id. -/
theorem initCounts_getD (k : ℕ) (asg : List ℕ) (hval : ∀ a ∈ asg, a < k) (c : ℕ) :
    (initCounts k asg).getD c 0 = asg.count c := by
  unfold initCounts
  rw [bumpCounts_getD asg (List.replicate k 0)
    (by rw [List.length_replicate]; exact hval) c]
  rw [getD_replicate_self]
  omega

/-- The state reached by the merge loop satisfies the loop invariant. -/
theorem mergedState_inv (pts : List (ℚ × ℚ)) (asg : List ℕ) :
    MergeInv (kOf asg) (mergedState pts asg) := by
  unfold mergedState
  apply mergeGo_inv
  exact ⟨initCounts_length (kOf asg) asg, fun a ha => lt_kOf asg a ha,
    fun c => initCounts_getD (kOf asg) asg (fun a ha => lt_kOf asg a ha) c⟩

/-- The merge loop's exit condition holds at the state it returns: the
provided fuel k + 1 strictly exceeds the number of non-empty clusters. -/
theorem mergedState_fix (pts : List (ℚ × ℚ)) (asg : List ℕ) :
    mergeStep (centroidsOf (kOf asg) pts asg) (mergedState pts asg) = none := by
  unfold mergedState
  apply mergeGo_fix
  show countPos (initCounts (kOf asg) asg) < kOf asg + 1
  have h1 : countPos (initCounts (kOf asg) asg) ≤ (initCounts (kOf asg) asg).length :=
    List.countP_le_length _
  rw [initCounts_length] at h1
  omega

/-- The dense renumbering is monotone in the cluster id. -/
theorem oldToNew_mono (counts : List ℕ) (c1 c2 : ℕ) (h : c1 ≤ c2) :
    oldToNew counts c1 ≤ oldToNew counts c2 :=
  ((List.range_sublist.mpr h).filter _).length_le

/-- The dense renumbering is strictly monotone from a surviving id to any
larger id. -/
theorem oldToNew_strict (counts : List ℕ) (c1 c2 : ℕ) (h1 : 0 < counts.getD c1 0)
    (h12 : c1 < c2) : oldToNew counts c1 < oldToNew counts c2 := by
  unfold oldToNew
  have hsub : (List.range (c1 + 1)).Sublist (List.range c2) :=
    List.range_sublist.mpr (by omega)
  have hmono := (hsub.filter fun j => decide (0 < counts.getD j 0)).length_le
  rw [List.range_succ, List.filter_append] at hmono
  have hfc1 : List.filter (fun j => decide (0 < counts.getD j 0)) [c1] = [c1] := by
    have hptrue : decide (0 < counts.getD c1 0) = true := decide_eq_true h1
    simp only [List.filter_cons, List.filter_nil]
    rw [hptrue]
    simp
  rw [hfc1, List.length_append, List.length_cons, List.length_nil] at hmono
  omega

/-- The number of surviving ids below k equals the number of non-empty
entries of the counts array of length k. -/
theorem filter_range_countPos : ∀ (counts : List ℕ),
    ((List.range counts.length).filter fun j => decide (0 < counts.getD j 0)).length =
      countPos counts := by
  intro counts
  induction counts with
  | nil => simp [countPos]
  | cons a t ih =>
    show (List.filter _ (List.range (t.length + 1))).length = _
    rw [List.range_succ_eq_map, List.filter_cons, List.filter_map]
    have hfun : ((fun j => decide (0 < (a :: t).getD j 0)) ∘ Nat.succ) =
        fun j => decide (0 < t.getD j 0) := by
      funext j
      simp [Function.comp, List.getD_cons_succ]
    rw [hfun]
    by_cases ha : 0 < a
    · rw [if_pos (by simp [List.getD_cons_zero, ha])]
      simp only [List.length_cons, List.length_map]
      rw [ih]
      simp [countPos, List.countP_cons, ha]
    · rw [if_neg (by simp [List.getD_cons_zero]; omega)]
      simp only [List.length_map]
      rw [ih]
      simp [countPos, List.countP_cons, ha]

/-- A surviving id is renumbered below the number of survivors. -/
theorem oldToNew_lt_countPos (counts : List ℕ) (c : ℕ) (hc : c < counts.length)
    (hpos : 0 < counts.getD c 0) : oldToNew counts c < countPos counts := by
  rw [← filter_range_countPos]
  exact oldToNew_strict counts c counts.length hpos hc

/-- Every number below the survivor count is hit by the renumbering of some
surviving id. -/
theorem oldToNew_surj (counts : List ℕ) : ∀ (k j : ℕ),
    j < ((List.range k).filter fun i => decide (0 < counts.getD i 0)).length →
    ∃ c, c < k ∧ 0 < counts.getD c 0 ∧ oldToNew counts c = j := by
  intro k
  induction k with
  | zero => intro j h; simp at h
  | succ n ih =>
    intro j h
    rw [List.range_succ, List.filter_append] at h
    by_cases hn : 0 < counts.getD n 0
    · have hptrue : decide (0 < counts.getD n 0) = true := decide_eq_true hn
      rw [show List.filter (fun i => decide (0 < counts.getD i 0)) [n] = [n] by
        simp only [List.filter_cons, List.filter_nil]
        rw [hptrue]
        simp] at h
      rw [List.length_append, List.length_cons, List.length_nil] at h
      by_cases hj : j < ((List.range n).filter fun i => decide (0 < counts.getD i 0)).length
      · obtain ⟨c, h1, h2, h3⟩ := ih j hj
        exact ⟨c, by omega, h2, h3⟩
      · have hjeq : j =
            ((List.range n).filter fun i => decide (0 < counts.getD i 0)).length := by
          omega
        refine ⟨n, by omega, hn, ?_⟩
        rw [hjeq]
        rfl
    · have hpfalse : decide (0 < counts.getD n 0) = false := decide_eq_false hn
      rw [show List.filter (fun i => decide (0 < counts.getD i 0)) [n] = [] by
        simp only [List.filter_cons, List.filter_nil]
        rw [hpfalse]
        simp] at h
      rw [List.length_append, List.length_nil] at h
      obtain ⟨c, h1, h2, h3⟩ := ih j (by omega)
      exact ⟨c, by omega, h2, h3⟩

/-- C2: after the small-cluster merge, every cluster id that still has a
member has at least MIN_CLUSTER_SIZE members, or it is the unique remaining
non-empty cluster (the degenerate all-undersized case, where a single
undersized cluster may remain). -/
theorem C2_min_cluster_size (pts : List (ℚ × ℚ)) (asg : List ℕ) (c : ℕ)
    (hc : 0 < (mergeSmallClusters pts asg).1.count c) :
    MIN_CLUSTER_SIZE ≤ (mergeSmallClusters pts asg).1.count c ∨
      ∀ d, d ≠ c → (mergeSmallClusters pts asg).1.count d = 0 := by
  obtain ⟨hlen, hvalid, hcount⟩ := mergedState_inv pts asg
  have hfix := mergedState_fix pts asg
  set st := mergedState pts asg with hstdef
  have hout : (mergeSmallClusters pts asg).1 = st.2.map fun b => oldToNew st.1 b := rfl
  rw [hout] at hc ⊢
  have hmem : c ∈ st.2.map fun b => oldToNew st.1 b := List.count_pos_iff.mp hc
  obtain ⟨a, ha, hac⟩ := List.mem_map.mp hmem
  have hapos : 0 < st.2.count a := List.count_pos_iff.mpr ha
  have hagd : 0 < st.1.getD a 0 := by rw [hcount a]; exact hapos
  have hinj : ∀ x ∈ st.2, oldToNew st.1 x = oldToNew st.1 a → x = a := by
    intro x hx hxa
    by_contra hne
    rcases Nat.lt_or_ge x a with hlt | hge
    · have := oldToNew_strict st.1 x a
        (by rw [hcount x]; exact List.count_pos_iff.mpr hx) hlt
      omega
    · have hgt : a < x := by omega
      have := oldToNew_strict st.1 a x hagd hgt
      omega
  have hcnt_eq : (st.2.map fun b => oldToNew st.1 b).count (oldToNew st.1 a) =
      st.2.count a := count_map_injAt (fun b => oldToNew st.1 b) a st.2 hinj
  rcases mergeStep_none_elim _ st hfix with hA | hB
  · left
    have hfa := findSmall_none st.1 hA a
    have h3 : MIN_CLUSTER_SIZE ≤ st.2.count a := by
      rw [← hcount a]
      omega
    rw [← hac, hcnt_eq]
    exact h3
  · obtain ⟨small, hsm, hnone⟩ := hB
    have hall : ∀ b ∈ st.2, b = small := by
      intro b hb
      have hbk : b < st.1.length := by rw [hlen]; exact hvalid b hb
      rcases findNearest_none _ st.1 small hnone b hbk with h1 | h1
      · exact h1
      · have hbpos : 0 < st.1.getD b 0 := by
          rw [hcount b]
          exact List.count_pos_iff.mpr hb
        omega
    right
    intro d hd
    rw [List.count_eq_zero]
    intro hdin
    obtain ⟨b, hb, hbd⟩ := List.mem_map.mp hdin
    have h1 : oldToNew st.1 small = c := by rw [← hall a ha]; exact hac
    have h2 : oldToNew st.1 small = d := by rw [← hall b hb]; exact hbd
    exact hd (by rw [← h2, h1])

/-- Witness for C2: a three-document single-cluster run keeps its cluster at
exactly the minimum size. -/
theorem C2_witness :
    MIN_CLUSTER_SIZE ≤ (mergeSmallClusters w3Points w3Assign).1.count 0 ∨
      ∀ d, d ≠ 0 → (mergeSmallClusters w3Points w3Assign).1.count d = 0 :=
  C2_min_cluster_size w3Points w3Assign 0 (by decide)

/-- C5 (amended): the renumbered assignments use exactly the ids
0 … newK−1 with no gaps, newK is at most the cluster count k before
merging, and the renumbering preserves the ascending numeric order of the
surviving old cluster ids (not their order of first appearance). -/
theorem C5_dense_renumbering (pts : List (ℚ × ℚ)) (asg : List ℕ) :
    (∀ j ∈ (mergeSmallClusters pts asg).1, j < (mergeSmallClusters pts asg).2) ∧
    (∀ j, j < (mergeSmallClusters pts asg).2 → j ∈ (mergeSmallClusters pts asg).1) ∧
    (mergeSmallClusters pts asg).2 ≤ kOf asg ∧
    (∀ i1 i2 : ℕ,
      i1 < (mergedState pts asg).2.length → i2 < (mergedState pts asg).2.length →
      ((mergedState pts asg).2.getD i1 0 < (mergedState pts asg).2.getD i2 0 ↔
        (mergeSmallClusters pts asg).1.getD i1 0 <
          (mergeSmallClusters pts asg).1.getD i2 0)) := by
  obtain ⟨hlen, hvalid, hcount⟩ := mergedState_inv pts asg
  set st := mergedState pts asg with hstdef
  have hout1 : (mergeSmallClusters pts asg).1 = st.2.map fun b => oldToNew st.1 b := rfl
  have hout2 : (mergeSmallClusters pts asg).2 = countPos st.1 := rfl
  refine ⟨?_, ?_, ?_, ?_⟩
  · intro j hj
    rw [hout1] at hj
    rw [hout2]
    obtain ⟨a, ha, haj⟩ := List.mem_map.mp hj
    have hagd : 0 < st.1.getD a 0 := by rw [hcount a]; exact List.count_pos_iff.mpr ha
    have halen : a < st.1.length := by rw [hlen]; exact hvalid a ha
    rw [← haj]
    exact oldToNew_lt_countPos st.1 a halen hagd
  · intro j hj
    rw [hout2] at hj
    rw [hout1]
    rw [← filter_range_countPos] at hj
    obtain ⟨c, hck, hcpos, hcj⟩ := oldToNew_surj st.1 st.1.length j hj
    have hcmem : c ∈ st.2 := by
      apply List.count_pos_iff.mp
      rw [← hcount c]
      exact hcpos
    rw [← hcj]
    exact List.mem_map_of_mem _ hcmem
  · rw [hout2]
    have h1 : countPos st.1 ≤ st.1.length := List.countP_le_length _
    rw [hlen] at h1
    exact h1
  · intro i1 i2 h1 h2
    have hg1 : (st.2.map fun b => oldToNew st.1 b).getD i1 0 =
        oldToNew st.1 (st.2.getD i1 0) :=
      getD_map (fun b => oldToNew st.1 b) 0 st.2 i1 h1
    have hg2 : (st.2.map fun b => oldToNew st.1 b).getD i2 0 =
        oldToNew st.1 (st.2.getD i2 0) :=
      getD_map (fun b => oldToNew st.1 b) 0 st.2 i2 h2
    rw [hout1, hg1, hg2]
    have hamem : st.2.getD i1 0 ∈ st.2 := getD_mem 0 st.2 i1 h1
    have hbmem : st.2.getD i2 0 ∈ st.2 := getD_mem 0 st.2 i2 h2
    have hagd : 0 < st.1.getD (st.2.getD i1 0) 0 := by
      rw [hcount]
      exact List.count_pos_iff.mpr hamem
    constructor
    · intro hab
      exact oldToNew_strict st.1 _ _ hagd hab
    · intro hfab
      by_contra hnab
      push_neg at hnab
      have := oldToNew_mono st.1 (st.2.getD i2 0) (st.2.getD i1 0) hnab
      omega

/-- Counterexample for C5 as stated: with surviving clusters 3 and 1 first
appearing in that order, the renumbering maps 1 to 0 and 3 to 1 (ascending
old-id order), so the order of first appearance 3-then-1 is not preserved:
the first-appearance sequence of the output is [1, 0], not [0, 1]. -/
theorem C5_counterexample :
    mergeSmallClusters c5Points c5Assign = ([1, 1, 1, 0, 0, 0], 2) ∧
      firstOccs (mergeSmallClusters c5Points c5Assign).1 ≠
        List.range (mergeSmallClusters c5Points c5Assign).2 := by
  constructor
  · decide
  · decide

/-- Witness for C5: on a three-document single-cluster run the dense ids
cover 0. -/
theorem C5_witness : (0 : ℕ) ∈ (mergeSmallClusters w3Points w3Assign).1 :=
  (C5_dense_renumbering w3Points w3Assign).2.1 0 (by decide)

/-- Reading a mapped range at a valid index. -/
theorem getD_map_range {α : Type} (f : ℕ → α) (d : α) (k c : ℕ) (h : c < k) :
    ((List.range k).map f).getD c d = f c := by
  rw [List.getD_eq_getElem?_getD, List.getElem?_map, List.getElem?_range h]
  rfl

/-- The coordinate-sum accumulation fold computes, per cluster, the sums of
the coordinates of the points assigned to that cluster. -/
theorem accumFold_getD : ∀ (l : List ((ℚ × ℚ) × ℕ)) (cs : List (ℚ × ℚ)) (c : ℕ),
    (∀ x ∈ l, x.2 < cs.length) →
    (l.foldl (fun cs pa =>
        cs.set pa.2 ((cs.getD pa.2 (0, 0)).1 + pa.1.1, (cs.getD pa.2 (0, 0)).2 + pa.1.2))
      cs).getD c (0, 0) =
      ((cs.getD c (0, 0)).1 +
          ((l.filter fun pa => decide (pa.2 = c)).map fun pa => pa.1.1).sum,
        (cs.getD c (0, 0)).2 +
          ((l.filter fun pa => decide (pa.2 = c)).map fun pa => pa.1.2).sum) := by
  intro l
  induction l with
  | nil => intro cs c _; simp
  | cons x t ih =>
    intro cs c hval
    rw [List.foldl_cons]
    have hxlen : x.2 < cs.length := hval x (List.mem_cons_self x t)
    have ht : ∀ y ∈ t,
        y.2 < (cs.set x.2
          ((cs.getD x.2 (0, 0)).1 + x.1.1, (cs.getD x.2 (0, 0)).2 + x.1.2)).length := by
      rw [List.length_set]
      exact fun y hy => hval y (List.mem_cons_of_mem x hy)
    rw [ih _ c ht]
    rw [List.filter_cons]
    by_cases hxc : x.2 = c
    · rw [if_pos (decide_eq_true hxc)]
      subst hxc
      rw [getD_set_eq (0, 0) _ cs x.2 hxlen]
      simp only [List.map_cons, List.sum_cons, Prod.mk.injEq]
      constructor
      · ring
      · ring
    · rw [if_neg (by simp [hxc])]
      rw [getD_set_ne (0, 0) _ cs x.2 c hxc]

/-- Filtering the zipped point list by cluster id counts that cluster's members,
when the two lists have equal length. -/
theorem zip_filter_length_count : ∀ (pts : List (ℚ × ℚ)) (asg : List ℕ),
    pts.length = asg.length → ∀ c,
      ((pts.zip asg).filter fun pa => decide (pa.2 = c)).length = asg.count c := by
  intro pts
  induction pts with
  | nil =>
    intro asg h c
    have hnil : asg = [] := List.eq_nil_of_length_eq_zero h.symm
    subst hnil
    simp
  | cons p pt ih =>
    intro asg h c
    cases asg with
    | nil => simp at h
    | cons a at2 =>
      rw [List.zip_cons_cons, List.filter_cons]
      have hlen : pt.length = at2.length := by
        simp only [List.length_cons] at h
        omega
      by_cases hac : a = c
      · rw [if_pos (decide_eq_true (show (p, a).2 = c from hac))]
        rw [List.length_cons, ih at2 hlen c, List.count_cons]
        simp [hac]
      · rw [if_neg (by simp [hac])]
        rw [ih at2 hlen c, List.count_cons]
        simp [hac]

/-- The centroid computed before the merge loop for a non-empty cluster is
the mean of the positions of the cluster's initial members. -/
theorem centroidsOf_getD (k : ℕ) (pts : List (ℚ × ℚ)) (asg : List ℕ) (c : ℕ)
    (hlen : pts.length = asg.length) (hval : ∀ a ∈ asg, a < k) (hpos : 0 < asg.count c) :
    (centroidsOf k pts asg).getD c (0, 0) = meanOf pts asg c := by
  have hck : c < k := hval c (List.count_pos_iff.mp hpos)
  simp only [centroidsOf]
  rw [getD_map_range _ _ k c hck]
  rw [initCounts_getD k asg hval c]
  rw [if_pos hpos]
  have hzval : ∀ x ∈ pts.zip asg, x.2 < (List.replicate k ((0 : ℚ), (0 : ℚ))).length := by
    rw [List.length_replicate]
    intro x hx
    obtain ⟨x1, x2⟩ := x
    exact hval x2 (List.of_mem_zip hx).2
  have hs := accumFold_getD (pts.zip asg) (List.replicate k ((0 : ℚ), (0 : ℚ))) c hzval
  rw [getD_replicate_self] at hs
  simp only [accumSums]
  rw [hs]
  simp only [zero_add]
  unfold meanOf
  simp only [List.map_map, List.length_map]
  rw [zip_filter_length_count pts asg hlen c]
  rfl

/-- C3 (amended): the merge loop uses fixed centroids computed once from the
initial assignments - for every initially non-empty cluster that stored
centroid is the mean of the cluster's initial members' positions - and each
iteration reassigns the undersized cluster's members to the other non-empty
cluster whose stored centroid is nearest by squared euclidean distance. -/
theorem C3_initial_centroid_merge :
    (∀ (k : ℕ) (pts : List (ℚ × ℚ)) (asg : List ℕ) (c : ℕ),
      pts.length = asg.length → (∀ a ∈ asg, a < k) → 0 < asg.count c →
      (centroidsOf k pts asg).getD c (0, 0) = meanOf pts asg c) ∧
    (∀ (cents : List (ℚ × ℚ)) (counts : List ℕ) (small nr : ℕ),
      findNearest cents counts small = some nr →
      nr < counts.length ∧ nr ≠ small ∧ 0 < counts.getD nr 0 ∧
        ∀ c2, c2 < counts.length → c2 ≠ small → 0 < counts.getD c2 0 →
          dist2 (cents.getD nr (0, 0)) (cents.getD small (0, 0)) ≤
            dist2 (cents.getD c2 (0, 0)) (cents.getD small (0, 0))) :=
  ⟨fun k pts asg c h1 h2 h3 => centroidsOf_getD k pts asg c h1 h2 h3,
   fun cents counts small nr h => findNearest_some cents counts small nr h⟩

/-- Witness for C3: on a concrete two-point single cluster the stored
centroid equals the member mean, obtained by applying the theorem. -/
theorem C3_witness :
    (centroidsOf 1 [((2 : ℚ), (0 : ℚ)), ((4 : ℚ), (0 : ℚ))] [0, 0]).getD 0 (0, 0) =
      meanOf [((2 : ℚ), (0 : ℚ)), ((4 : ℚ), (0 : ℚ))] [0, 0] 0 :=
  C3_initial_centroid_merge.1 1 [((2 : ℚ), (0 : ℚ)), ((4 : ℚ), (0 : ℚ))] [0, 0] 0
    (by decide) (by decide) (by decide)

/-- Counterexample for C3 as stated: on a concrete eight-point input the
code's merger (fixed initial centroids) and the spec-worded merger
(centroids recomputed from current members each iteration) produce
different final assignments: after singleton cluster 0 is absorbed into
singleton cluster 1, the code still uses cluster 1's original centroid and
merges the pair into cluster 2, while recomputing the centroid as the
spec says would merge them into cluster 3. -/
theorem C3_counterexample :
    mergeSmallClusters c3Points c3Assign = ([0, 0, 0, 0, 0, 1, 1, 1], 2) ∧
      mergeSmallClustersSpec c3Points c3Assign = ([1, 1, 0, 0, 0, 1, 1, 1], 2) ∧
      (mergeSmallClusters c3Points c3Assign).1 ≠
        (mergeSmallClustersSpec c3Points c3Assign).1 := by
  have h1 : mergeSmallClusters c3Points c3Assign = ([0, 0, 0, 0, 0, 1, 1, 1], 2) := by
    norm_num [mergeSmallClusters, mergedState, kOf, initCounts, bumpCounts, centroidsOf,
      accumSums, mergeGo, mergeStep, findSmall, findSmallAux, findNearest, scanNearest,
      betterOf, dist2, oldToNew, countPos, c3Points, c3Assign, List.zip, List.zipWith,
      List.foldl, List.set, List.getD, List.get?, List.range, List.filter, List.countP,
      List.countP.go, List.map, MIN_CLUSTER_SIZE]
  have h2 : mergeSmallClustersSpec c3Points c3Assign = ([1, 1, 0, 0, 0, 1, 1, 1], 2) := by
    norm_num [mergeSmallClustersSpec, specGo, specStep, specCentroids, meanOf, kOf,
      initCounts, bumpCounts, mergeStep, findSmall, findSmallAux, findNearest, scanNearest,
      betterOf, dist2, oldToNew, countPos, c3Points, c3Assign, List.zip, List.zipWith,
      List.foldl, List.set, List.getD, List.get?, List.range, List.filter, List.countP,
      List.countP.go, List.map, List.sum, MIN_CLUSTER_SIZE]
  refine ⟨h1, h2, ?_⟩
  rw [h1, h2]
  decide

/-
Cluster labeler (claim C8).
-/

/-- The dedup-with-break loop never grows the selection beyond three terms. -/
theorem dedupTop_length : ∀ (l acc : List String), acc.length ≤ 3 →
    (dedupTop l acc).length ≤ 3 := by
  intro l
  induction l with
  | nil => intro acc h; exact h
  | cons t rest ih =>
    intro acc h
    unfold dedupTop
    by_cases h3 : 3 ≤ acc.length
    · rw [if_pos h3]; exact h
    · rw [if_neg h3]
      by_cases hdup : isStemDuplicate t acc = true
      · rw [if_pos hdup]
        exact ih acc h
      · rw [if_neg hdup]
        apply ih
        rw [List.length_append]
        simp only [List.length_cons, List.length_nil]
        omega

/-- Every term selected by the dedup loop comes from the selection so far or
from the remaining candidates. -/
theorem dedupTop_subset : ∀ (l acc : List String) (t : String),
    t ∈ dedupTop l acc → t ∈ acc ∨ t ∈ l := by
  intro l
  induction l with
  | nil => intro acc t h; exact Or.inl h
  | cons hd rest ih =>
    intro acc t h
    unfold dedupTop at h
    by_cases h3 : 3 ≤ acc.length
    · rw [if_pos h3] at h; exact Or.inl h
    · rw [if_neg h3] at h
      by_cases hdup : isStemDuplicate hd acc = true
      · rw [if_pos hdup] at h
        rcases ih acc t h with h1 | h1
        · exact Or.inl h1
        · exact Or.inr (List.mem_cons_of_mem hd h1)
      · rw [if_neg hdup] at h
        rcases ih (acc ++ [hd]) t h with h1 | h1
        · rcases List.mem_append.mp h1 with h2 | h2
          · exact Or.inl h2
          · rcases List.mem_singleton.mp h2 with rfl
            exact Or.inr (List.mem_cons_self _ _)
        · exact Or.inr (List.mem_cons_of_mem hd h1)

/-- A term that is not a stem-duplicate of any already-selected term is in
particular not a stem-duplicate of each single one of them. -/
theorem isStem_singleton (t a : String) (acc : List String) (hmem : a ∈ acc)
    (h : isStemDuplicate t acc = false) : isStemDuplicate t [a] = false := by
  unfold isStemDuplicate at h ⊢
  rw [List.any_eq_false] at h
  have ha := h a hmem
  simp only [List.any_cons, List.any_nil, Bool.or_false]
  simp only [Bool.not_eq_true] at ha
  exact ha

/-- The dedup loop keeps the selection free of stem-duplicates: every later
selected term fails the stem-duplicate test against each earlier one. -/
theorem dedupTop_pairwise : ∀ (l acc : List String),
    acc.Pairwise (fun a b => isStemDuplicate b [a] = false) →
    (dedupTop l acc).Pairwise (fun a b => isStemDuplicate b [a] = false) := by
  intro l
  induction l with
  | nil => intro acc h; exact h
  | cons t rest ih =>
    intro acc h
    unfold dedupTop
    by_cases h3 : 3 ≤ acc.length
    · rw [if_pos h3]; exact h
    · rw [if_neg h3]
      by_cases hdup : isStemDuplicate t acc = true
      · rw [if_pos hdup]
        exact ih acc h
      · rw [if_neg hdup]
        apply ih
        rw [List.pairwise_append]
        refine ⟨h, List.pairwise_singleton _ t, ?_⟩
        intro a ha b hb
        rcases List.mem_singleton.mp hb with rfl
        exact isStem_singleton b a acc ha (Bool.not_eq_true _ ▸ hdup)

/-- C8: per cluster, the adjusted term scores are sorted descending (a
permutation of the original scores), at most 10 terms with strictly
positive score are kept, the morphological dedup keeps at most 3 terms, all
drawn from the kept top list and pairwise free of stem-duplicates, and the
label is the " & "-join of the capitalized survivors when at least two
survive, the single capitalized survivor when exactly one does, and the
fallback Cluster <c+1> when none survive. -/
theorem C8_labeler (ts : List (ℕ × ℚ)) (vocab : List String) (c : ℕ) :
    List.Sorted scoreGe (sortedScores ts) ∧
    (sortedScores ts).Perm ts ∧
    (((sortedScores ts).take 10).filter fun p => decide (0 < p.2)).length ≤ 10 ∧
    (∀ p ∈ ((sortedScores ts).take 10).filter fun p => decide (0 < p.2), 0 < p.2) ∧
    (dedupTop (topOf ts vocab) []).length ≤ 3 ∧
    (∀ t ∈ dedupTop (topOf ts vocab) [], t ∈ topOf ts vocab) ∧
    (dedupTop (topOf ts vocab) []).Pairwise (fun a b => isStemDuplicate b [a] = false) ∧
    (2 ≤ (dedupTop (topOf ts vocab) []).length →
      labelForCluster ts vocab c =
        String.intercalate ampSep ((dedupTop (topOf ts vocab) []).map capitalize)) ∧
    ((dedupTop (topOf ts vocab) []).length = 1 →
      labelForCluster ts vocab c =
        capitalize ((dedupTop (topOf ts vocab) []).getD 0 emptyStr)) ∧
    (dedupTop (topOf ts vocab) [] = [] →
      labelForCluster ts vocab c = clusterFallback ++ toString (c + 1)) := by
  refine ⟨List.sorted_insertionSort scoreGe ts, List.perm_insertionSort scoreGe ts,
    le_trans (List.length_filter_le _ _) (List.length_take_le 10 _), ?_, ?_, ?_, ?_, ?_, ?_, ?_⟩
  · intro p hp
    have := List.of_mem_filter hp
    exact of_decide_eq_true this
  · exact dedupTop_length (topOf ts vocab) [] (by simp)
  · intro t ht
    rcases dedupTop_subset (topOf ts vocab) [] t ht with h1 | h1
    · exact absurd h1 (List.not_mem_nil t)
    · exact h1
  · exact dedupTop_pairwise (topOf ts vocab) [] List.Pairwise.nil
  · intro h2
    unfold labelForCluster mkLabel
    rw [if_pos h2]
  · intro h1
    obtain ⟨t, hsel⟩ := List.length_eq_one.mp h1
    unfold labelForCluster mkLabel
    rw [hsel]
    rw [if_neg (by simp)]
    simp [List.getD_cons_zero]
  · intro hnil
    unfold labelForCluster mkLabel
    rw [hnil]
    rw [if_neg (by simp)]

/-- Witness for C8: on a concrete score list the survivors are team, trust
and safety (teams is dropped as a stem-duplicate of team), and the label is
their capitalized " & "-join, obtained by applying the labeler theorem. -/
theorem C8_witness :
    labelForCluster [(0, 5), (1, 4), (2, 3), (3, 2)] ["team", "teams", "trust", "safety"] 0 =
      String.intercalate ampSep
        ((dedupTop (topOf [(0, 5), (1, 4), (2, 3), (3, 2)]
          ["team", "teams", "trust", "safety"]) []).map capitalize) :=
  ((C8_labeler [(0, 5), (1, 4), (2, 3), (3, 2)] ["team", "teams", "trust", "safety"]
    0).2.2.2.2.2.2.2.1) (by decide)
